import Mathlib

/-!
# go-graphsplit: the slice planner, the result sinks and the path helper of `chunk.go`

A shallow embedding of `chunk.go` and a verification of its behaviour.

* `int64` quantities (`sliceSize`, `cumuSize`, `fileSize`, `seekStart`, `seekEnd`) are
  integers (`Int`) in the range `-2^63 .. 2^63 - 1`; every `int64` addition and subtraction
  of the code is followed by `wrap64`, the reduction into that range that Go performs.
* Go `int` counters that start at `0` and are only incremented are natural numbers.
* The `for seekEnd < fileSize-1` loop takes a bound on its number of iterations and yields
  `none` when the bound is exceeded.
* Calls into the operating system (`os.Stat`, the `dd` command, `json.Unmarshal`, `CalcCommP`)
  are parameters of the definitions that make them.
* `BuildIpldGraph` is recorded as the sequence of its calls: the list of records and the
  slice index that is passed to `GenGraphName`.
* A record is a whole file when its name is the name of its file, as the enumerator names its
  items, and a fragment when its name is `<name>.%08d`, as `ChunkMulti` names its cuts.

The file has three parts: the embedding of the code, the notions in which the properties are
stated (what a record denotes, runs of fragments, the restore and merge phases, which are not
part of `chunk.go`), and the proofs, which end with one theorem per claim C1 to C10.
-/

namespace Graphsplit

/-! ## Data model -/

/-- The part of `os.FileInfo` read by `chunk.go`: the results of `Name()` and `Size()`. -/
structure FileInfo where
  name : String
  size : Int
deriving DecidableEq, Repr

/-- The record type `Finfo` handled by `ChunkMulti` (a whole file or a byte range of one). -/
structure Finfo where
  Path : String
  Name : String
  Info : FileInfo
  SeekStart : Int
  SeekEnd : Int
deriving DecidableEq, Repr

/-- One call `BuildIpldGraph(ctx, graphFiles, GenGraphName(graphName, graphSliceCount, sliceTotal), ..)`. -/
structure Graph where
  files : List Finfo
  index : Nat
deriving DecidableEq, Repr

/-- The local variables of `ChunkMulti` that survive an iteration of its loops, together with
the calls of `BuildIpldGraph` made so far. -/
structure PlanState where
  cumuSize : Int
  graphSliceCount : Nat
  graphFiles : List Finfo
  built : List Graph
deriving DecidableEq, Repr

/-- The values of the locals at line 156–158. -/
def PlanState.init : PlanState :=
  { cumuSize := 0, graphSliceCount := 0, graphFiles := [], built := [] }

/-! ## Fragment names -/

/-- The verb `%08d` of `fmt.Sprintf` on a non-negative number: decimal digits, padded on the
left with zeros to a width of at least eight. -/
def pad8 (n : Nat) : String :=
  String.mk (List.replicate (8 - (Nat.repr n).length) '0') ++ Nat.repr n

/-- The name `fmt.Sprintf("%s.%08d", item.Info.Name(), fileSliceCount)`. -/
def fragmentName (name : String) (fileSliceCount : Nat) : String :=
  name ++ "." ++ pad8 fileSliceCount

/-! ## The planning loops of `ChunkMulti` (lines 183–255) -/

/-- The value an `int64` holds after an operation whose exact result is `x`: the
representative of `x` modulo `2^64` between `-2^63` and `2^63 - 1`. -/
def wrap64 (x : Int) : Int := (x + 2 ^ 63) % 2 ^ 64 - 2 ^ 63

/-- The fragment record appended at lines 210–216 and 235–241. -/
def mkFragment (item : Finfo) (fileSliceCount : Nat) (seekStart seekEnd : Int) : Finfo :=
  { Path := item.Path
    Name := fragmentName item.Info.name fileSliceCount
    Info := item.Info
    SeekStart := seekStart
    SeekEnd := seekEnd }

/-- The statements executed when a graph is closed: `BuildIpldGraph(..)`, `cumuSize = 0`,
`graphFiles = make([]Finfo, 0)`, `graphSliceCount++`. -/
def closeGraph (graphFiles : List Finfo) (st : PlanState) : PlanState :=
  { cumuSize := 0
    graphSliceCount := st.graphSliceCount + 1
    graphFiles := []
    built := st.built ++ [{ files := graphFiles, index := st.graphSliceCount }] }

/-- The new value of `seekEnd` computed at lines 227–231 from the old one. -/
def nextSeekEnd (sliceSize fileSize seekEnd : Int) : Int :=
  let seekStart := wrap64 (seekEnd + 1)
  let seekEnd := wrap64 (wrap64 (seekStart + sliceSize) - 1)
  if seekEnd ≥ wrap64 (fileSize - 1) then wrap64 (fileSize - 1) else seekEnd

/-- The loop `for seekEnd < fileSize-1 { .. }` of lines 226–253.  The first argument bounds the
number of iterations; `none` means that the bound was exceeded. -/
def cutLoop (sliceSize : Int) (item : Finfo) : Nat → Int → Nat → PlanState → Option PlanState
  | 0, seekEnd, _, st =>
    if seekEnd < wrap64 (item.Info.size - 1) then none else some st
  | fuel + 1, seekEnd, fileSliceCount, st =>
    if seekEnd < wrap64 (item.Info.size - 1) then
      let seekStart := wrap64 (seekEnd + 1)
      let seekEnd := nextSeekEnd sliceSize item.Info.size seekEnd
      let cumuSize := wrap64 (st.cumuSize + wrap64 (wrap64 (seekEnd - seekStart) + 1))
      let graphFiles := st.graphFiles ++ [mkFragment item fileSliceCount seekStart seekEnd]
      let st := { st with cumuSize := cumuSize, graphFiles := graphFiles }
      let st :=
        if wrap64 (seekEnd - seekStart) = wrap64 (sliceSize - 1) then closeGraph graphFiles st
        else st
      cutLoop sliceSize item fuel seekEnd (fileSliceCount + 1) st
    else some st

/-- The body of `for item := range files` (lines 184–254): the three cases of the `switch`. -/
def planFile (fuel : Nat) (sliceSize : Int) (st : PlanState) (item : Finfo) : Option PlanState :=
  let fileSize := item.Info.size
  if wrap64 (st.cumuSize + fileSize) < sliceSize then
    some { st with
      cumuSize := wrap64 (st.cumuSize + fileSize), graphFiles := st.graphFiles ++ [item] }
  else if wrap64 (st.cumuSize + fileSize) = sliceSize then
    some (closeGraph (st.graphFiles ++ [item])
      { st with
        cumuSize := wrap64 (st.cumuSize + fileSize), graphFiles := st.graphFiles ++ [item] })
  else
    let fileSliceCount := 0
    let firstCut := wrap64 (sliceSize - st.cumuSize)
    let seekStart : Int := 0
    let seekEnd : Int := wrap64 (wrap64 (seekStart + firstCut) - 1)
    let graphFiles := st.graphFiles ++ [mkFragment item fileSliceCount seekStart seekEnd]
    let st := closeGraph graphFiles { st with graphFiles := graphFiles }
    cutLoop sliceSize item fuel seekEnd (fileSliceCount + 1) st

/-- The loop `for item := range files` (lines 183–255). -/
def planFiles (fuel : Nat) (sliceSize : Int) : List Finfo → PlanState → Option PlanState
  | [], st => some st
  | item :: rest, st =>
    match planFile fuel sliceSize st item with
    | none => none
    | some st => planFiles fuel sliceSize rest st

/-! ## The final graph and its padding (lines 256–305) -/

/-- The outcomes of the two system calls made by `generateRandomPaddingFile`. -/
structure PaddingOS where
  /-- Whether `dd if=/dev/random of=<filePath> bs=<size> count=1` exits without error. -/
  dd : String → Int → Bool
  /-- The result of `os.Stat(filePath)` after the command ran (`none` when it fails). -/
  stat : String → Int → Option FileInfo

def carPaddingFileName : String := "___car___.placeholder"

/-- The function `generateRandomPaddingFile(path, size)`; `none` is the error return. -/
def generateRandomPaddingFile (os : PaddingOS) (path : String) (size : Int) : Option Finfo :=
  let filePath := path ++ "/" ++ carPaddingFileName
  if os.dd filePath size then
    match os.stat filePath size with
    | none => none
    | some finfo =>
      some { Path := filePath, Name := finfo.name, Info := finfo, SeekStart := 0, SeekEnd := 0 }
  else none

/-- Lines 256–273: the last graph, padded when `len(padding) > 0 && padding[0]`. -/
def finishPlan (os : PaddingOS) (sliceSize : Int) (parentPath : String) (padding : List Bool)
    (st : PlanState) : PlanState :=
  if st.cumuSize > 0 then
    let st :=
      if padding.head? = some true then
        match generateRandomPaddingFile os parentPath (wrap64 (sliceSize - st.cumuSize)) with
        | none => st
        | some f => { st with cumuSize := sliceSize, graphFiles := st.graphFiles ++ [f] }
      else st
    { st with built := st.built ++ [{ files := st.graphFiles, index := st.graphSliceCount }] }
  else st

/-- Lines 182–273 of `ChunkMulti`: the graphs handed to `BuildIpldGraph`, in call order. -/
def planGraphs (os : PaddingOS) (fuel : Nat) (sliceSize : Int) (parentPath : String)
    (padding : List Bool) (files : List Finfo) : Option (List Graph) :=
  match planFiles fuel sliceSize files PlanState.init with
  | none => none
  | some st => some (finishPlan os sliceSize parentPath padding st).built

/-! ## `ChunkMulti` and `Chunk` (lines 144–283) -/

/-- How a Go call ends: it returns, it stops the process through `log.Fatal`, or it panics. -/
inductive Exec (α : Type) where
  | done (a : α)
  | fatal (msg : String)
  | panicked (msg : String)
deriving DecidableEq, Repr

/-- The collaborators of `ChunkMulti` that live outside `chunk.go`. -/
structure ChunkEnv where
  /-- The function `GetGraphCount(args, sliceSize)`. -/
  GetGraphCount : List String → Int → Except String Int
  /-- The items received, in order, from the channel `GetFileListAsync(args)`. -/
  GetFileListAsync : List String → List Finfo
  /-- The system calls behind `generateRandomPaddingFile`. -/
  os : PaddingOS
  /-- The error of `commp.writeFileDescsToJsonFile(carDir)`; the outer `none` stands for a sink
  that is not a `*commPCallback` with a descriptor recorder, for which nothing is written. -/
  writeFileDescs : Option (Option String)

/-- What a call of `ChunkMulti` did: the graphs handed to `BuildIpldGraph`, whether the
descriptor file was written, and the returned error (`none` for `nil`). -/
structure ChunkResult where
  built : List Graph
  wroteDescs : Bool
  err : Option String
deriving DecidableEq, Repr

/-- The four guards of lines 159–170; `none` when all of them pass. -/
def configCheck (sliceSize : Int) (parentPath : String) (targetsPath : List String)
    (parallel : Int) : Option String :=
  if sliceSize = 0 then some "Unexpected! Slice size has been set as 0"
  else if parallel ≤ 0 then some "Unexpected! Parallel has to be greater than 0"
  else if parentPath = "" then some "Unexpected! ParentPath not be empty"
  else if targetsPath.length = 0 then some "Unexpected! TargetsPath size has to be greater than 0"
  else none

/-- The function `ChunkMulti`; `none` when a fragment loop exceeds the iteration bound. -/
def ChunkMulti (env : ChunkEnv) (fuel : Nat) (sliceSize : Int) (parentPath : String)
    (targetsPath : List String) (parallel : Int) (padding : List Bool) : Option ChunkResult :=
  match configCheck sliceSize parentPath targetsPath parallel with
  | some e => some { built := [], wroteDescs := false, err := some e }
  | none =>
    match env.GetGraphCount targetsPath sliceSize with
    | .error e => some { built := [], wroteDescs := false, err := some ("GetGraphCount error :" ++ e) }
    | .ok sliceTotal =>
      if sliceTotal = 0 then some { built := [], wroteDescs := false, err := none }
      else
        match planGraphs env.os fuel sliceSize parentPath padding
            (env.GetFileListAsync targetsPath) with
        | none => none
        | some gs =>
          match env.writeFileDescs with
          | none => some { built := gs, wroteDescs := false, err := none }
          | some none => some { built := gs, wroteDescs := true, err := none }
          | some (some e) => some { built := gs, wroteDescs := false, err := some e }

/-- The call `strings.LastIndex(s, sep)` for a separator of one character: the position of
its last occurrence, `-1` when there is none.  (Positions count characters; for the ASCII
separator `/` the prefix cut at that position is the one Go cuts at the byte position.) -/
def lastIndex (s : String) (sep : Char) : Int :=
  match s.data.reverse.indexOf? sep with
  | none => -1
  | some i => (s.length : Int) - 1 - (i : Int)

/-- The slice expression `s[:index]`: a run-time panic unless `0 ≤ index ≤ len(s)`. -/
def slicePrefix (s : String) (index : Int) : Exec String :=
  if index < 0 then .panicked ("slice bounds out of range [:" ++ toString index ++ "]")
  else if index ≤ s.length then .done (String.mk (s.data.take index.toNat))
  else .panicked ("slice bounds out of range [:" ++ toString index ++ "] with length " ++
    toString s.length)

/-- Lines 145–151 of `Chunk`: the parent path handed to `ChunkMulti`.  The argument
`isRegularFile` answers `os.Stat(targetPath)` succeeding on something that is no directory. -/
def chunkParentPath (isRegularFile : String → Bool) (parentPath targetPath : String) :
    Exec String :=
  if parentPath = "" then
    if isRegularFile targetPath then
      let index := lastIndex targetPath '/'
      slicePrefix targetPath index
    else .done targetPath
  else .done parentPath

/-- The function `Chunk`. -/
def Chunk (env : ChunkEnv) (isRegularFile : String → Bool) (fuel : Nat) (sliceSize : Int)
    (parentPath targetPath : String) (parallel : Int) (padding : List Bool) :
    Exec (Option ChunkResult) :=
  match chunkParentPath isRegularFile parentPath targetPath with
  | .done parentPath =>
    .done (ChunkMulti env fuel sliceSize parentPath [targetPath] parallel padding)
  | .fatal msg => .fatal msg
  | .panicked msg => .panicked msg

/-! ## The result sinks and the descriptor recorder (lines 30–120, 321–375) -/

/-- The result of `CalcCommP` as far as the sink reads it. -/
structure CommPResult where
  Root : String
  PayloadSize : Int
  Size : Nat
deriving DecidableEq, Repr

/-- One link of the layout description. -/
structure FsLink where
  Name : String
  Size : Int
deriving DecidableEq, Repr

/-- The decoded layout description `fsNode`, as far as `recordFilesDesc` reads it. -/
structure FsNode where
  Link : List FsLink
deriving DecidableEq, Repr

/-- The fields of `FileDesc` that `recordFilesDesc` fills in. -/
structure FileDesc where
  SourceFileName : String := ""
  SourceFilePath : String := ""
  SourceFileMd5 : String := ""
  SourceFileSize : Int := 0
  CarFileName : String := ""
  CarFilePath : String := ""
  CarFileMd5 : String := ""
  CarFileUrl : String := ""
  CarFileSize : Int := 0
  PayloadCid : String := ""
  PieceCid : String := ""
deriving DecidableEq, Repr

structure carDesc where
  carMd5 : Bool
  wholeDir : Bool
  inputDir : String
  fileDescs : List FileDesc
deriving DecidableEq, Repr

structure commPCallback where
  carDir : String
  rename : Bool
  addPadding : Bool
  carDesc : Option carDesc
deriving DecidableEq, Repr

structure csvCallback where
  carDir : String
deriving DecidableEq, Repr

/-- The collaborators of the sinks: library functions and the outcomes of system calls. -/
structure SinkEnv where
  pathJoin : String → String → String
  pathBase : String → String
  CalcCommP : String → Bool → Bool → Except String CommPResult
  /-- Whether `os.Stat(manifestPath)` fails with an error other than "does not exist". -/
  statFails : Bool
  /-- Whether `os.OpenFile(manifestPath, ..)` fails. -/
  openFails : Bool
  /-- Whether writing the data row fails. -/
  writeFails : Bool
  /-- The decoder `json.Unmarshal([]byte(detail), &node)`; `none` when it returns an error. -/
  jsonUnmarshal : String → Option FsNode
  /-- Whether `os.Stat(path)` succeeds. -/
  fileExists : String → Bool
  MD5sum : String → Except String String

/-- The header record of the commitment variant (line 68). -/
def commPHeader : List String :=
  ["playload_cid", "filename", "piece_cid", "payload_size", "piece_size", "detail"]

/-- The header line of the manifest-only variant (line 109). -/
def csvHeader : String := "playload_cid,filename,detail\n"

/-- The method `(*carDesc).recordFilesDesc`.  It returns the recorder as it is afterwards and
the error (`none` for `nil`); it panics on `node.Link[0]` when there is no link. -/
def carDesc.recordFilesDesc (env : SinkEnv) (cd : carDesc)
    (carPath payloadCid _filename pieceCid : String) (payloadSize _pieceSize : Int)
    (detail : String) : Exec (carDesc × Option String) :=
  let fd : FileDesc :=
    { PayloadCid := payloadCid, PieceCid := pieceCid, CarFileSize := payloadSize,
      CarFileName := payloadCid ++ ".car", CarFilePath := carPath }
  let fd := { fd with CarFileUrl := fd.CarFileName }
  match env.jsonUnmarshal detail with
  | none => .done (cd, some "json: cannot unmarshal")
  | some node =>
    let source : Exec FileDesc :=
      if cd.wholeDir then
        .done { fd with
          SourceFileName := env.pathBase cd.inputDir
          SourceFilePath := cd.inputDir
          SourceFileSize := node.Link.foldl (fun acc link => acc + link.Size) fd.SourceFileSize }
      else
        match node.Link with
        | [] => .panicked "index out of range [0] with length 0"
        | link :: _ =>
          .done { fd with
            SourceFileName := link.Name
            SourceFilePath := env.pathJoin cd.inputDir link.Name
            SourceFileSize := link.Size }
    match source with
    | .fatal msg => .fatal msg
    | .panicked msg => .panicked msg
    | .done fd =>
      if cd.carMd5 then
        let src : Except String FileDesc :=
          if env.fileExists fd.SourceFilePath then
            match env.MD5sum fd.SourceFilePath with
            | .error e => .error e
            | .ok srcFileMd5 => .ok { fd with SourceFileMd5 := srcFileMd5 }
          else .ok fd
        match src with
        | .error e => .done (cd, some e)
        | .ok fd =>
          match env.MD5sum fd.CarFilePath with
          | .error e => .done (cd, some e)
          | .ok carFileMd5 =>
            .done ({ cd with fileDescs := cd.fileDescs ++ [{ fd with CarFileMd5 := carFileMd5 }] },
              none)
      else .done ({ cd with fileDescs := cd.fileDescs ++ [fd] }, none)

/-- The method `(*commPCallback).OnSuccess`.  The manifest is the list of records written
through the CSV writer (`none` while the file does not exist); `cid` is `node.Cid().String()`.
The result is the manifest and the sink as they are when the method returns. -/
def commPCallback.OnSuccess (env : SinkEnv) (cc : commPCallback)
    (manifest : Option (List (List String))) (cid graphName fsDetail : String) :
    Exec (Option (List (List String)) × commPCallback) :=
  let carfilepath := env.pathJoin cc.carDir (cid ++ ".car")
  match env.CalcCommP carfilepath cc.rename cc.addPadding with
  | .error e => .fatal e
  | .ok cpRes =>
    if env.statFails then .fatal "stat manifest.csv"
    else
      let isCreateAction := manifest.isNone
      if env.openFails then .fatal "open manifest.csv"
      else
        let records := manifest.getD []
        let records := if isCreateAction then records ++ [commPHeader] else records
        if env.writeFails then .fatal "write manifest.csv"
        else
          let records := records ++
            [[cid, graphName, cpRes.Root, toString cpRes.PayloadSize, toString cpRes.Size,
              fsDetail]]
          match cc.carDesc with
          | none => .done (some records, cc)
          | some cd =>
            -- the error returned by `recordFilesDesc` is not looked at (line 80)
            match cd.recordFilesDesc env carfilepath cid graphName cpRes.Root cpRes.PayloadSize
                (cpRes.Size : Int) fsDetail with
            | .done (cd, _) => .done (some records, { cc with carDesc := some cd })
            | .fatal msg => .fatal msg
            | .panicked msg => .panicked msg

/-- The method `(*csvCallback).OnSuccess`.  The manifest is the content of the file (`none`
while it does not exist). -/
def csvCallback.OnSuccess (env : SinkEnv) (_cc : csvCallback) (manifest : Option String)
    (cid graphName fsDetail : String) : Exec (Option String) :=
  if env.statFails then .fatal "stat manifest.csv"
  else
    let isCreateAction := manifest.isNone
    if env.openFails then .fatal "open manifest.csv"
    else
      let content := manifest.getD ""
      if env.writeFails then .fatal "write manifest.csv"
      else
        let content := if isCreateAction then content ++ csvHeader else content
        .done (some (content ++ (cid ++ "," ++ graphName ++ "," ++ fsDetail ++ "\n")))

/-! ## What a record denotes -/

/-- The byte length of a record: the size of the file for a whole-file record (its name is
the file's own name), `SeekEnd - SeekStart + 1` for a fragment. -/
def recordLen (r : Finfo) : Int :=
  if r.Name = r.Info.name then r.Info.size else r.SeekEnd - r.SeekStart + 1

/-- The total byte length of a list of records. -/
def graphLen (rs : List Finfo) : Int := (rs.map recordLen).sum

/-- The bytes of a record on a disk `disk : path ↦ content`: the whole file for a whole-file
record, the inclusive range `[SeekStart, SeekEnd]` of the file for a fragment. -/
def recordBytes (disk : String → List UInt8) (r : Finfo) : List UInt8 :=
  if r.Name = r.Info.name then disk r.Path
  else ((disk r.Path).drop r.SeekStart.toNat).take (r.SeekEnd - r.SeekStart + 1).toNat

/-- All records of a list of graphs, in graph order and in record order inside a graph. -/
def allRecords (gs : List Graph) : List Finfo := gs.flatMap Graph.files

/-- The records planned so far: those of the closed graphs, then those of the open one. -/
def PlanState.records (st : PlanState) : List Finfo := allRecords st.built ++ st.graphFiles

/-- An item as the file enumerator `GetFileListAsync` (outside `chunk.go`) yields it: its
display name is the name of its file, as the data model has it for a file that is not split,
and its size is not negative. -/
def Enumerated (f : Finfo) : Prop := f.Name = f.Info.name ∧ 0 ≤ f.Info.size

instance (f : Finfo) : Decidable (Enumerated f) := by
  unfold Enumerated; infer_instance

/-- The number of iterations `⌈fileSize / sliceSize⌉`. -/
def ceilDiv (fileSize sliceSize : Int) : Nat := ((fileSize + sliceSize - 1) / sliceSize).toNat

/-- The list `rs` is a run of fragments of `item`: numbered `seq, seq+1, ..`, the first one
starting at offset `next`, each following one right after the end of its predecessor, none
empty, the last one ending at the last byte of the file. -/
def FragRun (item : Finfo) : Int → Nat → List Finfo → Prop
  | next, _, [] => next = item.Info.size
  | next, seq, r :: rs =>
    r = mkFragment item seq next r.SeekEnd ∧ next ≤ r.SeekEnd ∧ r.SeekEnd < item.Info.size ∧
      FragRun item (r.SeekEnd + 1) (seq + 1) rs

/-- The invariant of the planning loops between two files. -/
structure Inv (sliceSize : Int) (st : PlanState) : Prop where
  cumu_nonneg : 0 ≤ st.cumuSize
  cumu_lt : st.cumuSize < sliceSize
  cumu_eq : graphLen st.graphFiles = st.cumuSize
  built_full : ∀ g ∈ st.built, graphLen g.files = sliceSize
  index_eq : st.built.map Graph.index = List.range st.graphSliceCount
  open_pos : ∀ r ∈ st.graphFiles, 0 ≤ recordLen r ∧ (r.Name ≠ r.Info.name → 0 < recordLen r)

/-- What the planner appends for one input file: the file itself, or a run of fragments. -/
def SegmentOf (item : Finfo) (seg : List Finfo) : Prop :=
  seg = [item] ∨ (seg ≠ [] ∧ FragRun item 0 0 seg)

/-- What the planner appends for the input file `item` that it reaches with `c` bytes in the
open graph: the file itself when it fits (`c + fileSize ≤ sliceSize`), a run of fragments
when it does not. -/
def SegmentAt (sliceSize c : Int) (item : Finfo) (seg : List Finfo) : Prop :=
  (seg = [item] ∧ c + item.Info.size ≤ sliceSize) ∨
    (seg ≠ [] ∧ FragRun item 0 0 seg ∧ sliceSize < c + item.Info.size)

/-- The records planned for a list of files that is reached with `c` bytes in the open graph:
one segment per file, the next file being reached with `(c + fileSize) mod sliceSize`
bytes. -/
def SegmentsFrom (sliceSize : Int) : Int → List Finfo → List (List Finfo) → Prop
  | _, [], [] => True
  | c, item :: files, seg :: segs =>
    SegmentAt sliceSize c item seg ∧
      SegmentsFrom sliceSize ((c + item.Info.size) % sliceSize) files segs
  | _, _, _ => False

/-- Whether a record is a fragment: its name is not the name of its file. -/
def isFragment (r : Finfo) : Bool := r.Name != r.Info.name

/-- The list `run` is the list of fragments of a split file `item`, in order: the `k`-th one
is named `<name>.%08d` with number `k`, is not empty, starts at offset `0` when it is the
first and right after its predecessor otherwise, and the last one ends at `fileSize - 1`. -/
def FragmentsCover (item : Finfo) (run : List Finfo) : Prop :=
  run ≠ [] ∧ ∀ (k : Nat) (r : Finfo), run[k]? = some r →
    r.Path = item.Path ∧ r.Info = item.Info ∧ r.Name = fragmentName item.Info.name k ∧
    r.SeekStart ≤ r.SeekEnd ∧ (k = 0 → r.SeekStart = 0) ∧
    (∀ r', run[k + 1]? = some r' → r'.SeekStart = r.SeekEnd + 1) ∧
    (k + 1 = run.length → r.SeekEnd = item.Info.size - 1)

/-- The fragments of a list of files that is reached with `c` bytes in the open graph, one
run per file: a file that fits (`c + fileSize ≤ sliceSize`) is not split and has no fragment,
a file that does not fit is split and its run is the ordered list of its fragments; the next
file is reached with `(c + fileSize) mod sliceSize` bytes. -/
def SplitRuns (sliceSize : Int) : Int → List Finfo → List (List Finfo) → Prop
  | _, [], [] => True
  | c, item :: files, run :: runs =>
    ((c + item.Info.size ≤ sliceSize ∧ run = []) ∨
        (sliceSize < c + item.Info.size ∧ FragmentsCover item run)) ∧
      SplitRuns sliceSize ((c + item.Info.size) % sliceSize) files runs
  | _, _, _ => False

/-! ## Restore and merge (outside `chunk.go`) -/

/-- The number written by a list of decimal digits. -/
def digitsValue (ds : List Char) : Nat :=
  ds.foldl (fun acc c => 10 * acc + (c.toNat - 48)) 0

/-- Modelled from the spec: the split of a file name at its `.%08d` suffix, by which the merge
phase (code outside `chunk.go`) regroups fragments.  The name ends in a dot followed by eight
or more decimal digits; the result is the part before that dot and the number written. -/
def splitSuffix (name : String) : Option (String × Nat) :=
  let rev := name.data.reverse
  let digits := rev.takeWhile Char.isDigit
  match rev.dropWhile Char.isDigit with
  | '.' :: base =>
    if 8 ≤ digits.length then some (String.mk base.reverse, digitsValue digits.reverse)
    else none
  | _ => none

/-- Modelled from the spec: the extraction phase (code outside `chunk.go`), which writes every
leaf of every archive as a file bearing the name of the record and holding its bytes. -/
def extractFiles (disk : String → List UInt8) (gs : List Graph) :
    List (String × List UInt8) :=
  (allRecords gs).map (fun r => (r.Name, recordBytes disk r))

/-- Modelled from the spec: what a file of a directory brings to the group of `base`, namely
the number of its suffix and its content when its name is `base` followed by a `.%08d`
suffix, and nothing otherwise. -/
def suffixEntry (base : String) (f : String × List UInt8) : Option (Nat × List UInt8) :=
  match splitSuffix f.1 with
  | some (b, n) => if b = base then some (n, f.2) else none
  | none => none

/-- Modelled from the spec: the group of `base` in a directory, the files whose name is `base`
followed by a `.%08d` suffix, each with the number of its suffix. -/
def suffixGroup (dir : List (String × List UInt8)) (base : String) :
    List (Nat × List UInt8) :=
  dir.filterMap (suffixEntry base)

/-- An input file paired with the records planned for it, as the round trip needs them: the
file is named as the enumerator names it, its name carries no `.%08d` suffix, and the records
are the file itself or a run of its fragments. -/
def GoodPair (p : Finfo × List Finfo) : Prop :=
  p.1.Name = p.1.Info.name ∧ splitSuffix p.1.Info.name = none ∧ SegmentOf p.1 p.2

/-- Modelled from the spec: the merge phase (code outside `chunk.go`), which groups the files
by the part of their name before the `.%08d` suffix, sorts each group numerically by suffix
and concatenates its contents in that order into one file bearing the name without suffix;
a file without such a suffix stays as it is. -/
def Merge (dir : List (String × List UInt8)) : List (String × List UInt8) :=
  let whole := dir.filter (fun f => (splitSuffix f.1).isNone)
  let bases := (dir.filterMap (fun f => (splitSuffix f.1).map Prod.fst)).dedup
  whole ++ bases.map (fun base =>
    (base, ((suffixGroup dir base).insertionSort (fun x y => x.1 ≤ y.1)).flatMap Prod.snd))

/-! ## Sample inputs -/

/-- An operating system on which the padding file cannot be generated. -/
def failingOS : PaddingOS := { dd := fun _ _ => false, stat := fun _ _ => none }

/-- An operating system on which `dd` writes the whole block it was asked for. -/
def workingOS : PaddingOS :=
  { dd := fun _ _ => true, stat := fun _ size => some { name := carPaddingFileName, size := size } }

/-- The item the enumerator yields for the file `name` of `size` bytes under `/data`. -/
def sampleFile (name : String) (size : Int) : Finfo :=
  { Path := "/data/" ++ name, Name := name, Info := { name := name, size := size },
    SeekStart := 0, SeekEnd := 0 }

/-- A disk on which the file at `/data/<c>` of the samples holds the bytes `0, 1, 2, ..`. -/
def sampleDisk (files : List Finfo) (path : String) : List UInt8 :=
  match files.find? (fun f => f.Path == path) with
  | some f => (List.range f.Info.size.toNat).map (fun i => UInt8.ofNat i)
  | none => []

/-- An environment in which the graph count is 2, the enumerator yields two files of 10 and
25 bytes, padding files cannot be generated and the sink records no descriptors. -/
def sampleEnv : ChunkEnv :=
  { GetGraphCount := fun _ _ => .ok 2
    GetFileListAsync := fun _ => [sampleFile "file1" 10, sampleFile "file2" 25]
    os := failingOS
    writeFileDescs := none }

/-- An environment of the sinks in which every system call succeeds and no layout description
can be decoded. -/
def sampleSinkEnv : SinkEnv :=
  { pathJoin := fun a b => a ++ "/" ++ b
    pathBase := fun a => a
    CalcCommP := fun _ _ _ => .ok { Root := "baga", PayloadSize := 20, Size := 32 }
    statFails := false
    openFails := false
    writeFails := false
    jsonUnmarshal := fun _ => none
    fileExists := fun _ => true
    MD5sum := fun _ => .ok "d41d" }

/-! ## Basic facts -/

theorem fragmentName_ne (name : String) (k : Nat) : fragmentName name k ≠ name := by
  intro h
  have hl := congrArg String.length h
  unfold fragmentName at hl
  rw [String.length_append, String.length_append] at hl
  have : (".").length = 1 := rfl
  omega

theorem mkFragment_name_ne (item : Finfo) (k : Nat) (a b : Int) :
    (mkFragment item k a b).Name ≠ (mkFragment item k a b).Info.name :=
  fragmentName_ne _ _

theorem recordLen_mkFragment (item : Finfo) (k : Nat) (a b : Int) :
    recordLen (mkFragment item k a b) = b - a + 1 := by
  unfold recordLen
  rw [if_neg (mkFragment_name_ne item k a b)]
  rfl

theorem recordLen_enumerated {f : Finfo} (h : f.Name = f.Info.name) :
    recordLen f = f.Info.size := by
  unfold recordLen
  rw [if_pos h]

theorem graphLen_nil : graphLen [] = 0 := rfl

theorem graphLen_append (xs ys : List Finfo) :
    graphLen (xs ++ ys) = graphLen xs + graphLen ys := by
  simp [graphLen, List.sum_append]

theorem graphLen_singleton (r : Finfo) : graphLen [r] = recordLen r := by
  simp [graphLen]

theorem graphLen_cons (r : Finfo) (rs : List Finfo) :
    graphLen (r :: rs) = recordLen r + graphLen rs := by
  simp [graphLen]

theorem allRecords_append (xs ys : List Graph) :
    allRecords (xs ++ ys) = allRecords xs ++ allRecords ys := by
  simp [allRecords, List.flatMap_append]

theorem allRecords_singleton (g : Graph) : allRecords [g] = g.files := by
  simp [allRecords]

/-! ## The fragment loop -/

theorem wrap64_eq (x : Int) (h1 : -(2 ^ 63) ≤ x) (h2 : x < 2 ^ 63) : wrap64 x = x := by
  unfold wrap64
  omega

theorem nextSeekEnd_bounds (S size seekEnd : Int) (hS : 0 < S) (hsz : 0 ≤ size)
    (hfit : S + size < 2 ^ 63) (h0 : -(2 ^ 63) ≤ seekEnd) (h : seekEnd < size - 1) :
    seekEnd < nextSeekEnd S size seekEnd ∧ nextSeekEnd S size seekEnd ≤ size - 1 ∧
      nextSeekEnd S size seekEnd - (seekEnd + 1) ≤ S - 1 ∧
      (nextSeekEnd S size seekEnd - (seekEnd + 1) = S - 1 ∨
        nextSeekEnd S size seekEnd = size - 1) := by
  unfold nextSeekEnd wrap64
  simp only
  split <;> omega

theorem cutLoop_exit (S : Int) (item : Finfo) (fuel : Nat) (seekEnd : Int) (k : Nat)
    (st : PlanState) (hsz : 0 ≤ item.Info.size) (hmax : item.Info.size < 2 ^ 63)
    (h : ¬ seekEnd < item.Info.size - 1) :
    cutLoop S item fuel seekEnd k st = some st := by
  have hw : wrap64 (item.Info.size - 1) = item.Info.size - 1 :=
    wrap64_eq _ (by omega) (by omega)
  cases fuel <;> simp [cutLoop, hw, h]

/-- One iteration of the fragment loop when no `int64` operation overflows. -/
theorem cutLoop_succ (S : Int) (item : Finfo) (fuel : Nat) (seekEnd : Int) (k : Nat)
    (st : PlanState) (hS : 0 < S) (hfit : S + item.Info.size < 2 ^ 63) (h0 : 0 ≤ seekEnd)
    (hlt : seekEnd < item.Info.size - 1) (hc : st.cumuSize = 0) :
    cutLoop S item (fuel + 1) seekEnd k st =
      cutLoop S item fuel (nextSeekEnd S item.Info.size seekEnd) (k + 1)
        (if nextSeekEnd S item.Info.size seekEnd - (seekEnd + 1) = S - 1 then
          closeGraph
            (st.graphFiles ++
              [mkFragment item k (seekEnd + 1) (nextSeekEnd S item.Info.size seekEnd)])
            { st with
              cumuSize := nextSeekEnd S item.Info.size seekEnd - (seekEnd + 1) + 1
              graphFiles := st.graphFiles ++
                [mkFragment item k (seekEnd + 1) (nextSeekEnd S item.Info.size seekEnd)] }
        else
          { st with
            cumuSize := nextSeekEnd S item.Info.size seekEnd - (seekEnd + 1) + 1
            graphFiles := st.graphFiles ++
              [mkFragment item k (seekEnd + 1) (nextSeekEnd S item.Info.size seekEnd)] }) := by
  obtain ⟨h1, h2, h3, _⟩ :=
    nextSeekEnd_bounds S item.Info.size seekEnd hS (by omega) hfit (by omega) hlt
  have w1 : wrap64 (item.Info.size - 1) = item.Info.size - 1 :=
    wrap64_eq _ (by omega) (by omega)
  have w2 : wrap64 (seekEnd + 1) = seekEnd + 1 := wrap64_eq _ (by omega) (by omega)
  have w3 : wrap64 (nextSeekEnd S item.Info.size seekEnd - (seekEnd + 1)) =
      nextSeekEnd S item.Info.size seekEnd - (seekEnd + 1) :=
    wrap64_eq _ (by omega) (by omega)
  have w4 : wrap64 (nextSeekEnd S item.Info.size seekEnd - (seekEnd + 1) + 1) =
      nextSeekEnd S item.Info.size seekEnd - (seekEnd + 1) + 1 :=
    wrap64_eq _ (by omega) (by omega)
  have w5 : wrap64 (0 + (nextSeekEnd S item.Info.size seekEnd - (seekEnd + 1) + 1)) =
      nextSeekEnd S item.Info.size seekEnd - (seekEnd + 1) + 1 := by
    rw [Int.zero_add]
    exact w4
  have w6 : wrap64 (S - 1) = S - 1 := wrap64_eq _ (by omega) (by omega)
  simp only [cutLoop, w1, if_pos hlt, w2, w3, w4, hc, w5, w6]

theorem inv_of_empty (S : Int) (hS : 0 < S) (st : PlanState) (hc : st.cumuSize = 0)
    (hg : st.graphFiles = []) (hb : ∀ g ∈ st.built, graphLen g.files = S)
    (hi : st.built.map Graph.index = List.range st.graphSliceCount) : Inv S st where
  cumu_nonneg := by omega
  cumu_lt := by omega
  cumu_eq := by rw [hg, hc]; rfl
  built_full := hb
  index_eq := hi
  open_pos := by rw [hg]; intro r hr; cases hr

theorem sub_emod_self (x S : Int) : (x - S) % S = x % S := by
  have h : x - S = x + S * (-1) := by ring
  rw [h, Int.add_mul_emod_self_left]

theorem cutLoop_spec (S : Int) (item : Finfo) (hS : 0 < S)
    (hfit : S + item.Info.size < 2 ^ 63) :
    ∀ (fuel : Nat) (seekEnd : Int) (k : Nat) (st : PlanState),
      0 ≤ seekEnd → seekEnd ≤ item.Info.size - 1 → item.Info.size - 1 - seekEnd ≤ fuel * S →
      st.cumuSize = 0 → st.graphFiles = [] →
      (∀ g ∈ st.built, graphLen g.files = S) →
      st.built.map Graph.index = List.range st.graphSliceCount →
      ∃ st' frags, cutLoop S item fuel seekEnd k st = some st' ∧
        FragRun item (seekEnd + 1) k frags ∧ st'.records = st.records ++ frags ∧
        Inv S st' ∧ st'.cumuSize = (item.Info.size - 1 - seekEnd) % S := by
  intro fuel
  induction fuel with
  | zero =>
    intro seekEnd k st h0 hle hfuel hc hg hb hi
    have hnot : ¬ seekEnd < item.Info.size - 1 := by
      simp only [Nat.cast_zero, zero_mul] at hfuel
      omega
    refine ⟨st, [], cutLoop_exit S item 0 seekEnd k st (by omega) (by omega) hnot, ?_,
      by simp, ?_, ?_⟩
    · show seekEnd + 1 = item.Info.size
      omega
    · exact inv_of_empty S hS st hc hg hb hi
    · have hz : item.Info.size - 1 - seekEnd = 0 := by omega
      rw [hc, hz]
      rfl
  | succ fuel ih =>
    intro seekEnd k st h0 hle hfuel hc hg hb hi
    by_cases hlt : seekEnd < item.Info.size - 1
    · obtain ⟨h1, h2, h3, h4⟩ :=
        nextSeekEnd_bounds S item.Info.size seekEnd hS (by omega) hfit (by omega) hlt
      have hmul : ((fuel + 1 : Nat) : Int) * S = fuel * S + S := by push_cast; ring
      have hstep := cutLoop_succ S item fuel seekEnd k st hS hfit h0 hlt hc
      obtain ⟨cumu, cnt, gf, built⟩ := st
      simp only at hc hg hb hi hstep
      subst hc hg
      by_cases hfull : nextSeekEnd S item.Info.size seekEnd - (seekEnd + 1) = S - 1
      · rw [if_pos hfull] at hstep
        obtain ⟨st', frags, hrun, hfr, hrec, hinv, hmod⟩ :=
          ih (nextSeekEnd S item.Info.size seekEnd) (k + 1)
          (closeGraph
            ([] ++ [mkFragment item k (seekEnd + 1) (nextSeekEnd S item.Info.size seekEnd)])
            { cumuSize := nextSeekEnd S item.Info.size seekEnd - (seekEnd + 1) + 1
              graphSliceCount := cnt
              graphFiles := [] ++ [mkFragment item k (seekEnd + 1)
                (nextSeekEnd S item.Info.size seekEnd)]
              built := built })
          (by omega) h2 (by omega) rfl rfl
          (by
            intro g hgm
            simp only [closeGraph, List.mem_append, List.mem_singleton] at hgm
            rcases hgm with hgm | hgm
            · exact hb g hgm
            · subst hgm
              simp only [List.nil_append, graphLen_singleton, recordLen_mkFragment]
              omega)
          (by simp [closeGraph, hi, List.range_succ])
        refine ⟨st', mkFragment item k (seekEnd + 1) (nextSeekEnd S item.Info.size seekEnd)
          :: frags, ?_, ?_, ?_, hinv, ?_⟩
        · rw [hstep]
          exact hrun
        · exact ⟨rfl, by simp only [mkFragment]; omega, by simp only [mkFragment]; omega, hfr⟩
        · rw [hrec]
          simp [PlanState.records, closeGraph, allRecords_append, allRecords_singleton]
        · rw [hmod, ← sub_emod_self (item.Info.size - 1 - seekEnd) S]
          congr 1
          omega
      · rw [if_neg hfull] at hstep
        have hend : nextSeekEnd S item.Info.size seekEnd = item.Info.size - 1 := by
          rcases h4 with h4 | h4
          · exact absurd h4 hfull
          · exact h4
        refine ⟨{ cumuSize := nextSeekEnd S item.Info.size seekEnd - (seekEnd + 1) + 1
                  graphSliceCount := cnt
                  graphFiles := [] ++ [mkFragment item k (seekEnd + 1)
                    (nextSeekEnd S item.Info.size seekEnd)]
                  built := built },
          [mkFragment item k (seekEnd + 1) (nextSeekEnd S item.Info.size seekEnd)],
          ?_, ?_, ?_, ?_, ?_⟩
        · rw [hstep]
          exact cutLoop_exit S item fuel _ _ _ (by omega) (by omega) (by omega)
        · refine ⟨rfl, by simp only [mkFragment]; omega, by simp only [mkFragment]; omega, ?_⟩
          show nextSeekEnd S item.Info.size seekEnd + 1 = item.Info.size
          omega
        · simp [PlanState.records]
        · refine ⟨by simp only; omega, by simp only; omega, ?_, hb, hi, ?_⟩
          · simp only [List.nil_append, graphLen_singleton, recordLen_mkFragment]
          · intro r hr
            simp only [List.nil_append, List.mem_singleton] at hr
            subst hr
            rw [recordLen_mkFragment]
            constructor
            · omega
            · intro _; omega
        · show nextSeekEnd S item.Info.size seekEnd - (seekEnd + 1) + 1 =
            (item.Info.size - 1 - seekEnd) % S
          rw [Int.emod_eq_of_lt (by omega) (by omega)]
          omega
    · refine ⟨st, [], cutLoop_exit S item _ seekEnd k st (by omega) (by omega) hlt, ?_,
        by simp, ?_, ?_⟩
      · show seekEnd + 1 = item.Info.size
        omega
      · exact inv_of_empty S hS st hc hg hb hi
      · have hz : item.Info.size - 1 - seekEnd = 0 := by omega
        rw [hc, hz]
        rfl

/-! ## One file, then all files -/

theorem le_mul_of_ceilDiv_le (S size : Int) (fuel : Nat) (hS : 0 < S)
    (h : ceilDiv size S ≤ fuel) : size ≤ fuel * S := by
  unfold ceilDiv at h
  have hq : (size + S - 1) / S ≤ (fuel : Int) := by
    have := Int.self_le_toNat ((size + S - 1) / S)
    omega
  have h1 := Int.emod_add_ediv (size + S - 1) S
  have h2 := Int.emod_lt_of_pos (size + S - 1) hS
  have h3 : S * ((size + S - 1) / S) ≤ S * fuel := Int.mul_le_mul_of_nonneg_left hq hS.le
  have h4 : S * (fuel : Int) = fuel * S := Int.mul_comm _ _
  omega

theorem planFile_lt (fuel : Nat) (S : Int) (st : PlanState) (item : Finfo)
    (h0 : 0 ≤ st.cumuSize) (hsz : 0 ≤ item.Info.size) (hfit : S + item.Info.size < 2 ^ 63)
    (c1 : st.cumuSize + item.Info.size < S) :
    planFile fuel S st item =
      some { st with
        cumuSize := st.cumuSize + item.Info.size, graphFiles := st.graphFiles ++ [item] } := by
  have w : wrap64 (st.cumuSize + item.Info.size) = st.cumuSize + item.Info.size :=
    wrap64_eq _ (by omega) (by omega)
  simp only [planFile, w, if_pos c1]

theorem planFile_eq (fuel : Nat) (S : Int) (st : PlanState) (item : Finfo)
    (h0 : 0 ≤ st.cumuSize) (hsz : 0 ≤ item.Info.size) (hfit : S + item.Info.size < 2 ^ 63)
    (c2 : st.cumuSize + item.Info.size = S) :
    planFile fuel S st item =
      some (closeGraph (st.graphFiles ++ [item])
        { st with
          cumuSize := st.cumuSize + item.Info.size
          graphFiles := st.graphFiles ++ [item] }) := by
  have w : wrap64 (st.cumuSize + item.Info.size) = st.cumuSize + item.Info.size :=
    wrap64_eq _ (by omega) (by omega)
  have c1 : ¬ st.cumuSize + item.Info.size < S := by omega
  simp only [planFile, w, if_neg c1, if_pos c2]

theorem planFile_gt (fuel : Nat) (S : Int) (st : PlanState) (item : Finfo)
    (h0 : 0 ≤ st.cumuSize) (hlt : st.cumuSize < S) (hsz : 0 ≤ item.Info.size)
    (hfit : S + item.Info.size < 2 ^ 63) (c3 : S < st.cumuSize + item.Info.size) :
    planFile fuel S st item =
      cutLoop S item fuel (S - st.cumuSize - 1) 1
        (closeGraph (st.graphFiles ++ [mkFragment item 0 0 (S - st.cumuSize - 1)])
          { st with
            graphFiles := st.graphFiles ++ [mkFragment item 0 0 (S - st.cumuSize - 1)] }) := by
  have w : wrap64 (st.cumuSize + item.Info.size) = st.cumuSize + item.Info.size :=
    wrap64_eq _ (by omega) (by omega)
  have w1 : wrap64 (S - st.cumuSize) = S - st.cumuSize := wrap64_eq _ (by omega) (by omega)
  have w2 : wrap64 (0 + (S - st.cumuSize)) = S - st.cumuSize := by
    rw [Int.zero_add]
    exact w1
  have w3 : wrap64 (S - st.cumuSize - 1) = S - st.cumuSize - 1 :=
    wrap64_eq _ (by omega) (by omega)
  have c1 : ¬ st.cumuSize + item.Info.size < S := by omega
  have c2 : ¬ st.cumuSize + item.Info.size = S := by omega
  simp only [planFile, w, if_neg c1, if_neg c2, w1, w2, w3, Nat.zero_add]

theorem planFile_spec (S : Int) (fuel : Nat) (st : PlanState) (item : Finfo) (hS : 0 < S)
    (hinv : Inv S st) (hen : Enumerated item) (hfit : S + item.Info.size < 2 ^ 63)
    (hfuel : item.Info.size ≤ fuel * S) :
    ∃ st' seg, planFile fuel S st item = some st' ∧ SegmentAt S st.cumuSize item seg ∧
      st'.records = st.records ++ seg ∧ Inv S st' ∧
      st'.cumuSize = (st.cumuSize + item.Info.size) % S := by
  obtain ⟨hname, hsize⟩ := hen
  have h0 := hinv.cumu_nonneg
  have hlt := hinv.cumu_lt
  have hceq := hinv.cumu_eq
  have hfull := hinv.built_full
  have hidx := hinv.index_eq
  have hopen := hinv.open_pos
  by_cases c1 : st.cumuSize + item.Info.size < S
  · refine ⟨_, [item], planFile_lt fuel S st item h0 hsize hfit c1,
      Or.inl ⟨rfl, by omega⟩, ?_, ?_, ?_⟩
    · simp [PlanState.records]
    · refine ⟨by simp only; omega, c1, ?_, hfull, hidx, ?_⟩
      · simp only [graphLen_append, graphLen_singleton, recordLen_enumerated hname, hceq]
      · intro r hr
        simp only [List.mem_append, List.mem_singleton] at hr
        rcases hr with hr | hr
        · exact hopen r hr
        · subst hr
          rw [recordLen_enumerated hname]
          exact ⟨hsize, fun hne => absurd hname hne⟩
    · exact (Int.emod_eq_of_lt (by omega) c1).symm
  · by_cases c2 : st.cumuSize + item.Info.size = S
    · refine ⟨_, [item], planFile_eq fuel S st item h0 hsize hfit c2,
        Or.inl ⟨rfl, by omega⟩, ?_, ?_, ?_⟩
      · simp [PlanState.records, closeGraph, allRecords_append, allRecords_singleton]
      · apply inv_of_empty S hS _ rfl rfl
        · intro g hgm
          simp only [closeGraph, List.mem_append, List.mem_singleton] at hgm
          rcases hgm with hgm | hgm
          · exact hfull g hgm
          · subst hgm
            simp only [graphLen_append, graphLen_singleton, recordLen_enumerated hname, hceq]
            exact c2
        · simp [closeGraph, hidx, List.range_succ]
      · rw [c2, Int.emod_self]
        rfl
    · have c3 : S < st.cumuSize + item.Info.size := by omega
      have hloop := cutLoop_spec S item hS hfit fuel (S - st.cumuSize - 1) 1
        (closeGraph (st.graphFiles ++ [mkFragment item 0 0 (S - st.cumuSize - 1)])
          { st with
            graphFiles := st.graphFiles ++ [mkFragment item 0 0 (S - st.cumuSize - 1)] })
        (by omega) (by omega) (by omega) rfl rfl
        (by
          intro g hgm
          simp only [closeGraph, List.mem_append, List.mem_singleton] at hgm
          rcases hgm with hgm | hgm
          · exact hfull g hgm
          · subst hgm
            simp only [graphLen_append, graphLen_singleton, recordLen_mkFragment, hceq]
            omega)
        (by simp [closeGraph, hidx, List.range_succ])
      obtain ⟨st', frags, hrun, hfr, hrec, hinv', hmod⟩ := hloop
      refine ⟨st', mkFragment item 0 0 (S - st.cumuSize - 1) :: frags, ?_,
        Or.inr ⟨by simp, ?_, c3⟩, ?_, hinv', ?_⟩
      · rw [planFile_gt fuel S st item h0 hlt hsize hfit c3]
        exact hrun
      · refine ⟨rfl, by simp only [mkFragment]; omega, by simp only [mkFragment]; omega, ?_⟩
        have hk : (0 : Nat) + 1 = 1 := rfl
        rw [hk]
        exact hfr
      · rw [hrec]
        simp [PlanState.records, closeGraph, allRecords_append, allRecords_singleton]
      · rw [hmod, ← sub_emod_self (st.cumuSize + item.Info.size) S]
        congr 1
        omega

theorem planFiles_spec (S : Int) (fuel : Nat) (hS : 0 < S) :
    ∀ (files : List Finfo) (st : PlanState), Inv S st →
      (∀ f ∈ files, Enumerated f) → (∀ f ∈ files, S + f.Info.size < 2 ^ 63) →
      (∀ f ∈ files, ceilDiv f.Info.size S ≤ fuel) →
      ∃ st' segs, planFiles fuel S files st = some st' ∧
        SegmentsFrom S st.cumuSize files segs ∧
        st'.records = st.records ++ segs.flatten ∧ Inv S st' := by
  intro files
  induction files with
  | nil =>
    intro st hinv _ _ _
    exact ⟨st, [], rfl, trivial, by simp, hinv⟩
  | cons item rest ih =>
    intro st hinv hen hfit hfuel
    obtain ⟨st1, seg, h1, hseg, hrec1, hinv1, hmod⟩ := planFile_spec S fuel st item hS hinv
      (hen item (List.mem_cons_self _ _)) (hfit item (List.mem_cons_self _ _))
      (le_mul_of_ceilDiv_le S _ fuel hS (hfuel item (List.mem_cons_self _ _)))
    obtain ⟨st2, segs, h2, hsegs, hrec2, hinv2⟩ := ih st1 hinv1
      (fun f hf => hen f (List.mem_cons_of_mem _ hf))
      (fun f hf => hfit f (List.mem_cons_of_mem _ hf))
      (fun f hf => hfuel f (List.mem_cons_of_mem _ hf))
    refine ⟨st2, seg :: segs, ?_, ⟨hseg, ?_⟩, ?_, hinv2⟩
    · simp only [planFiles, h1]
      exact h2
    · rw [← hmod]
      exact hsegs
    · rw [hrec2, hrec1]
      simp

theorem segmentAt_segmentOf {S c : Int} {item : Finfo} {seg : List Finfo}
    (h : SegmentAt S c item seg) : SegmentOf item seg := by
  rcases h with ⟨h, _⟩ | ⟨h1, h2, _⟩
  · exact Or.inl h
  · exact Or.inr ⟨h1, h2⟩

theorem segmentsFrom_forall₂ (S : Int) :
    ∀ (files : List Finfo) (segs : List (List Finfo)) (c : Int),
      SegmentsFrom S c files segs → List.Forall₂ SegmentOf files segs := by
  intro files
  induction files with
  | nil =>
    intro segs c h
    cases segs with
    | nil => exact List.Forall₂.nil
    | cons seg segs => exact absurd h (by simp [SegmentsFrom])
  | cons item rest ih =>
    intro segs c h
    cases segs with
    | nil => exact absurd h (by simp [SegmentsFrom])
    | cons seg segs =>
      obtain ⟨h1, h2⟩ := h
      exact List.Forall₂.cons (segmentAt_segmentOf h1) (ih segs _ h2)

theorem inv_init (S : Int) (hS : 0 < S) : Inv S PlanState.init :=
  inv_of_empty S hS _ rfl rfl (by intro g hg; cases hg) rfl

/-! ## Facts about runs of fragments -/

theorem fragRun_head {item : Finfo} {next : Int} {k : Nat} {r : Finfo} {rs : List Finfo}
    (h : FragRun item next k (r :: rs)) :
    r.Path = item.Path ∧ r.Name = fragmentName item.Info.name k ∧ r.Info = item.Info ∧
      r.SeekStart = next ∧ next ≤ r.SeekEnd ∧ r.SeekEnd < item.Info.size ∧
      FragRun item (r.SeekEnd + 1) (k + 1) rs := by
  obtain ⟨h1, h2, h3, h4⟩ := h
  refine ⟨?_, ?_, ?_, ?_, h2, h3, h4⟩ <;> (rw [h1]; rfl)

theorem fragRun_name_ne (item : Finfo) :
    ∀ (rs : List Finfo) (next : Int) (k : Nat), FragRun item next k rs →
      ∀ r ∈ rs, r.Name ≠ r.Info.name := by
  intro rs
  induction rs with
  | nil => intro _ _ _ r hr; cases hr
  | cons x xs ih =>
    intro next k h r hr
    obtain ⟨_, hn, hi, _, _, _, hrest⟩ := fragRun_head h
    rcases List.mem_cons.mp hr with hr | hr
    · subst hr
      rw [hn, hi]
      exact fragmentName_ne _ _
    · exact ih _ _ hrest r hr

theorem recordBytes_fragment (disk : String → List UInt8) (r : Finfo)
    (h : r.Name ≠ r.Info.name) :
    recordBytes disk r =
      ((disk r.Path).drop r.SeekStart.toNat).take (r.SeekEnd - r.SeekStart + 1).toNat := by
  unfold recordBytes
  rw [if_neg h]

theorem recordBytes_whole (disk : String → List UInt8) (r : Finfo) (h : r.Name = r.Info.name) :
    recordBytes disk r = disk r.Path := by
  unfold recordBytes
  rw [if_pos h]

theorem fragRun_bytes (disk : String → List UInt8) (item : Finfo)
    (hlen : ((disk item.Path).length : Int) = item.Info.size) :
    ∀ (rs : List Finfo) (next : Int) (k : Nat), 0 ≤ next → FragRun item next k rs →
      rs.flatMap (recordBytes disk) = (disk item.Path).drop next.toNat := by
  intro rs
  induction rs with
  | nil =>
    intro next k h0 h
    have hn : next = item.Info.size := h
    rw [List.flatMap_nil, List.drop_eq_nil_of_le]
    omega
  | cons x xs ih =>
    intro next k h0 h
    obtain ⟨hp, hn, hi, hs, hle, hlt, hrest⟩ := fragRun_head h
    have hne : x.Name ≠ x.Info.name := by
      rw [hn, hi]
      exact fragmentName_ne _ _
    rw [List.flatMap_cons, recordBytes_fragment disk x hne, ih _ _ (by omega) hrest, hp, hs]
    have hsum : (x.SeekEnd + 1).toNat = next.toNat + (x.SeekEnd - next + 1).toNat := by omega
    rw [hsum, ← List.drop_drop, List.take_append_drop]

theorem fragRun_len (item : Finfo) :
    ∀ (rs : List Finfo) (next : Int) (k : Nat), FragRun item next k rs →
      graphLen rs = item.Info.size - next := by
  intro rs
  induction rs with
  | nil =>
    intro next k h
    have hn : next = item.Info.size := h
    rw [graphLen_nil]
    omega
  | cons x xs ih =>
    intro next k h
    obtain ⟨_, hn, hi, hs, _, _, hrest⟩ := fragRun_head h
    have hne : x.Name ≠ x.Info.name := by
      rw [hn, hi]
      exact fragmentName_ne _ _
    rw [graphLen_cons, ih _ _ hrest]
    unfold recordLen
    rw [if_neg hne, hs]
    omega

/-- The records planned for the input files have the total size of these files. -/
theorem segments_len (files : List Finfo) (segs : List (List Finfo))
    (h : List.Forall₂ SegmentOf files segs) (hen : ∀ f ∈ files, Enumerated f) :
    graphLen segs.flatten = (files.map (fun f => f.Info.size)).sum := by
  induction h with
  | nil => rfl
  | @cons item seg rest segs' hseg _ ih =>
    rw [List.flatten_cons, graphLen_append, List.map_cons, List.sum_cons,
      ih (fun f hf => hen f (List.mem_cons_of_mem _ hf))]
    congr 1
    rcases hseg with hseg | ⟨_, hrun⟩
    · rw [hseg, graphLen_singleton,
        recordLen_enumerated (hen item (List.mem_cons_self _ _)).1]
    · rw [fragRun_len item seg 0 0 hrun]
      omega

theorem graphLen_allRecords_full (S : Int) :
    ∀ (gs : List Graph), (∀ g ∈ gs, graphLen g.files = S) →
      graphLen (allRecords gs) = S * gs.length := by
  intro gs
  induction gs with
  | nil => intro _; simp [allRecords, graphLen]
  | cons g gs ih =>
    intro h
    have hcons : allRecords (g :: gs) = g.files ++ allRecords gs := by
      simp [allRecords]
    rw [hcons, graphLen_append, h g (List.mem_cons_self _ _),
      ih (fun g' hg' => h g' (List.mem_cons_of_mem _ hg'))]
    simp only [List.length_cons]
    push_cast
    ring

theorem segment_bytes (disk : String → List UInt8) (item : Finfo) (seg : List Finfo)
    (hname : item.Name = item.Info.name)
    (hlen : ((disk item.Path).length : Int) = item.Info.size) (h : SegmentOf item seg) :
    seg.flatMap (recordBytes disk) = disk item.Path := by
  rcases h with h | ⟨_, h⟩
  · subst h
    simp [recordBytes_whole disk item hname]
  · rw [fragRun_bytes disk item hlen seg 0 0 (le_refl 0) h]
    rfl

theorem segments_bytes (disk : String → List UInt8) (files : List Finfo)
    (segs : List (List Finfo)) (h : List.Forall₂ SegmentOf files segs)
    (hfiles : ∀ f ∈ files, f.Name = f.Info.name ∧ ((disk f.Path).length : Int) = f.Info.size) :
    segs.flatten.flatMap (recordBytes disk) = files.flatMap (fun f => disk f.Path) := by
  induction h with
  | nil => rfl
  | @cons item seg rest segs' hseg _ ih =>
    rw [List.flatten_cons, List.flatMap_append, List.flatMap_cons,
      segment_bytes disk item seg (hfiles item (List.mem_cons_self _ _)).1
        (hfiles item (List.mem_cons_self _ _)).2 hseg,
      ih (fun f hf => hfiles f (List.mem_cons_of_mem _ hf))]

theorem whole_mem_of_segments (files : List Finfo) (segs : List (List Finfo))
    (h : List.Forall₂ SegmentOf files segs) (r : Finfo) (hr : r ∈ segs.flatten)
    (hname : r.Name = r.Info.name) : r ∈ files := by
  induction h with
  | nil => simp at hr
  | @cons item seg rest segs' hseg _ ih =>
    rw [List.flatten_cons, List.mem_append] at hr
    rcases hr with hr | hr
    · rcases hseg with hseg | ⟨_, hseg⟩
      · subst hseg
        rw [List.mem_singleton] at hr
        subst hr
        exact List.mem_cons_self _ _
      · exact absurd hname (fragRun_name_ne item seg 0 0 hseg r hr)
    · exact List.mem_cons_of_mem _ (ih hr)

theorem recordLen_zero_of_graphLen_zero :
    ∀ (rs : List Finfo), (∀ r ∈ rs, 0 ≤ recordLen r) → graphLen rs = 0 →
      ∀ r ∈ rs, recordLen r = 0 := by
  intro rs
  induction rs with
  | nil => intro _ _ r hr; cases hr
  | cons x xs ih =>
    intro hpos hsum r hr
    rw [graphLen_cons] at hsum
    have hx := hpos x (List.mem_cons_self _ _)
    have hxs : 0 ≤ graphLen xs := by
      unfold graphLen
      apply List.sum_nonneg
      intro y hy
      obtain ⟨r', hr', rfl⟩ := List.mem_map.mp hy
      exact hpos r' (List.mem_cons_of_mem _ hr')
    rcases List.mem_cons.mp hr with hr | hr
    · subst hr; omega
    · exact ih (fun r' hr' => hpos r' (List.mem_cons_of_mem _ hr')) (by omega) r hr

/-- With an accumulator at zero, the open graph holds nothing but empty whole files. -/
theorem open_whole_of_cumu_zero (S : Int) (st : PlanState) (hinv : Inv S st)
    (hc : st.cumuSize = 0) : ∀ r ∈ st.graphFiles, r.Name = r.Info.name ∧ r.Info.size = 0 := by
  intro r hr
  have hz := recordLen_zero_of_graphLen_zero st.graphFiles
    (fun r' hr' => (hinv.open_pos r' hr').1) (by rw [hinv.cumu_eq, hc]) r hr
  have hname : r.Name = r.Info.name := by
    by_contra hne
    have := (hinv.open_pos r hr).2 hne
    omega
  refine ⟨hname, ?_⟩
  rw [recordLen_enumerated hname] at hz
  exact hz

/-! ## The last graph -/

theorem finishPlan_unpadded (os : PaddingOS) (S : Int) (parentPath : String)
    (padding : List Bool) (st : PlanState) (hpad : padding.head? ≠ some true) :
    (finishPlan os S parentPath padding st).built =
      if st.cumuSize > 0 then
        st.built ++ [{ files := st.graphFiles, index := st.graphSliceCount }]
      else st.built := by
  unfold finishPlan
  simp only [if_neg hpad]
  split <;> rfl

theorem finishPlan_empty (os : PaddingOS) (S : Int) (parentPath : String)
    (padding : List Bool) (st : PlanState) (hc : ¬ st.cumuSize > 0) :
    (finishPlan os S parentPath padding st).built = st.built := by
  unfold finishPlan
  rw [if_neg hc]

theorem finishPlan_padded (os : PaddingOS) (S : Int) (parentPath : String)
    (padding : List Bool) (st : PlanState) (f : Finfo) (hpad : padding.head? = some true)
    (hc : st.cumuSize > 0)
    (hgen : generateRandomPaddingFile os parentPath (wrap64 (S - st.cumuSize)) = some f) :
    (finishPlan os S parentPath padding st).built =
      st.built ++ [{ files := st.graphFiles ++ [f], index := st.graphSliceCount }] := by
  unfold finishPlan
  simp only [if_pos hc, if_pos hpad, hgen]

theorem finishPlan_generation_failed (os : PaddingOS) (S : Int) (parentPath : String)
    (padding : List Bool) (st : PlanState) (hc : st.cumuSize > 0)
    (hgen : generateRandomPaddingFile os parentPath (wrap64 (S - st.cumuSize)) = none) :
    (finishPlan os S parentPath padding st).built =
      st.built ++ [{ files := st.graphFiles, index := st.graphSliceCount }] := by
  unfold finishPlan
  by_cases hpad : padding.head? = some true
  · simp only [if_pos hc, if_pos hpad, hgen]
  · simp only [if_pos hc, if_neg hpad]

theorem generateRandomPaddingFile_name (os : PaddingOS) (path : String) (size : Int)
    (f : Finfo) (h : generateRandomPaddingFile os path size = some f) :
    f.Name = f.Info.name := by
  unfold generateRandomPaddingFile at h
  simp only at h
  split at h
  · split at h
    · cases h
    · cases h
      rfl
  · cases h

/-- The loop over the files, from the initial state. -/
theorem planFiles_init_spec (fuel : Nat) (S : Int) (files : List Finfo) (hS : 0 < S)
    (hen : ∀ f ∈ files, Enumerated f) (hfit : ∀ f ∈ files, S + f.Info.size < 2 ^ 63)
    (hfuel : ∀ f ∈ files, ceilDiv f.Info.size S ≤ fuel) :
    ∃ st segs, planFiles fuel S files PlanState.init = some st ∧
      SegmentsFrom S 0 files segs ∧ allRecords st.built ++ st.graphFiles = segs.flatten ∧
      Inv S st ∧ st.built.length = st.graphSliceCount := by
  obtain ⟨st, segs, hrun, hsegs, hrec, hinv⟩ :=
    planFiles_spec S fuel hS files PlanState.init (inv_init S hS) hen hfit hfuel
  refine ⟨st, segs, hrun, hsegs, ?_, hinv, ?_⟩
  · simpa [PlanState.records, PlanState.init, allRecords] using hrec
  · have := congrArg List.length hinv.index_eq
    simpa using this

/-- The unpadded planner as a whole: it returns; the records of the emitted graphs, followed
by the records `dropped` with the open graph, are the segments of the input files in order;
what is dropped is nothing but empty whole files; and the graphs other than an unfilled last
one are full. -/
theorem planGraphs_unpadded_spec (os : PaddingOS) (fuel : Nat) (S : Int) (parentPath : String)
    (padding : List Bool) (files : List Finfo) (hS : 0 < S)
    (hen : ∀ f ∈ files, Enumerated f) (hfit : ∀ f ∈ files, S + f.Info.size < 2 ^ 63)
    (hfuel : ∀ f ∈ files, ceilDiv f.Info.size S ≤ fuel)
    (hpad : padding.head? ≠ some true) :
    ∃ gs segs dropped, planGraphs os fuel S parentPath padding files = some gs ∧
      List.Forall₂ SegmentOf files segs ∧ allRecords gs ++ dropped = segs.flatten ∧
      (∀ r ∈ dropped, r ∈ files ∧ r.Name = r.Info.name ∧ r.Info.size = 0) ∧
      (∀ g ∈ gs.dropLast, graphLen g.files = S) ∧
      (∀ g, gs.getLast? = some g → 0 < graphLen g.files ∧ graphLen g.files ≤ S) ∧
      gs.map Graph.index = List.range gs.length := by
  obtain ⟨st, segs, hrun, hsegs', hrec', hinv, hlen⟩ :=
    planFiles_init_spec fuel S files hS hen hfit hfuel
  have hsegs := segmentsFrom_forall₂ S files segs 0 hsegs'
  by_cases hc : st.cumuSize > 0
  · refine ⟨st.built ++ [{ files := st.graphFiles, index := st.graphSliceCount }], segs, [],
      ?_, hsegs, ?_, ?_, ?_, ?_, ?_⟩
    · simp only [planGraphs, hrun, finishPlan_unpadded os S parentPath padding st hpad, if_pos hc]
    · simpa [allRecords_append, allRecords_singleton] using hrec'
    · intro r hr; cases hr
    · intro g hg
      rw [List.dropLast_concat] at hg
      exact hinv.built_full g hg
    · intro g hg
      rw [List.getLast?_concat] at hg
      cases hg
      simp only
      rw [hinv.cumu_eq]
      exact ⟨hc, le_of_lt hinv.cumu_lt⟩
    · simp [hinv.index_eq, List.range_succ, hlen]
  · have hzero : st.cumuSize = 0 := le_antisymm (not_lt.mp hc) hinv.cumu_nonneg
    have hwhole := open_whole_of_cumu_zero S st hinv hzero
    refine ⟨st.built, segs, st.graphFiles, ?_, hsegs, hrec', ?_, ?_, ?_, ?_⟩
    · simp only [planGraphs, hrun, finishPlan_unpadded os S parentPath padding st hpad, if_neg hc]
    · intro r hr
      obtain ⟨hn, hz⟩ := hwhole r hr
      refine ⟨whole_mem_of_segments files segs hsegs r ?_ hn, hn, hz⟩
      rw [← hrec']
      exact List.mem_append_right _ hr
    · intro g hg
      exact hinv.built_full g (List.mem_of_mem_dropLast hg)
    · intro g hg
      have hmem : g ∈ st.built := List.mem_of_getLast?_eq_some hg
      rw [hinv.built_full g hmem]
      exact ⟨hS, le_refl S⟩
    · rw [hinv.index_eq, hlen]

/-- The planner as a whole, with or without padding: it returns; the records of the emitted
graphs, followed by the records `dropped` with the open graph, are the segments of the input
files in order, followed by the placeholder `pad` when one is appended; what is dropped is
nothing but empty whole files, and only when the total size is a multiple of the slice
size. -/
theorem planGraphs_records (os : PaddingOS) (fuel : Nat) (S : Int) (parentPath : String)
    (padding : List Bool) (files : List Finfo) (hS : 0 < S)
    (hen : ∀ f ∈ files, Enumerated f) (hfit : ∀ f ∈ files, S + f.Info.size < 2 ^ 63)
    (hfuel : ∀ f ∈ files, ceilDiv f.Info.size S ≤ fuel) :
    ∃ gs segs dropped pad, planGraphs os fuel S parentPath padding files = some gs ∧
      SegmentsFrom S 0 files segs ∧ allRecords gs ++ dropped = segs.flatten ++ pad ∧
      (∀ r ∈ dropped, r ∈ files ∧ r.Name = r.Info.name ∧ r.Info.size = 0) ∧
      (dropped ≠ [] → pad = [] ∧ S ∣ (files.map (fun f => f.Info.size)).sum) ∧
      (pad = [] ∨ (padding.head? = some true ∧
        ∃ f size, generateRandomPaddingFile os parentPath size = some f ∧ pad = [f])) := by
  obtain ⟨st, segs, hrun, hsegs', hrec', hinv, _⟩ :=
    planFiles_init_spec fuel S files hS hen hfit hfuel
  have hsegs := segmentsFrom_forall₂ S files segs 0 hsegs'
  by_cases hc : st.cumuSize > 0
  · by_cases hpad : padding.head? = some true
    · cases hgen : generateRandomPaddingFile os parentPath (wrap64 (S - st.cumuSize)) with
      | none =>
        refine ⟨st.built ++ [{ files := st.graphFiles, index := st.graphSliceCount }], segs,
          [], [], ?_, hsegs', ?_, ?_, ?_, Or.inl rfl⟩
        · simp only [planGraphs, hrun,
            finishPlan_generation_failed os S parentPath padding st hc hgen]
        · simpa [allRecords_append, allRecords_singleton] using hrec'
        · intro r hr; cases hr
        · intro h; exact absurd rfl h
      | some f =>
        refine ⟨st.built ++ [{ files := st.graphFiles ++ [f], index := st.graphSliceCount }],
          segs, [], [f], ?_, hsegs', ?_, ?_, ?_, Or.inr ⟨hpad, f, _, hgen, rfl⟩⟩
        · simp only [planGraphs, hrun,
            finishPlan_padded os S parentPath padding st f hpad hc hgen]
        · rw [← hrec']
          simp [allRecords_append, allRecords_singleton]
        · intro r hr; cases hr
        · intro h; exact absurd rfl h
    · refine ⟨st.built ++ [{ files := st.graphFiles, index := st.graphSliceCount }], segs,
        [], [], ?_, hsegs', ?_, ?_, ?_, Or.inl rfl⟩
      · simp only [planGraphs, hrun, finishPlan_unpadded os S parentPath padding st hpad,
          if_pos hc]
      · simpa [allRecords_append, allRecords_singleton] using hrec'
      · intro r hr; cases hr
      · intro h; exact absurd rfl h
  · have hzero : st.cumuSize = 0 := le_antisymm (not_lt.mp hc) hinv.cumu_nonneg
    have hwhole := open_whole_of_cumu_zero S st hinv hzero
    refine ⟨st.built, segs, st.graphFiles, [], ?_, hsegs', ?_, ?_, ?_, Or.inl rfl⟩
    · simp only [planGraphs, hrun, finishPlan_empty os S parentPath padding st hc]
    · rw [List.append_nil]
      exact hrec'
    · intro r hr
      obtain ⟨hn, hz⟩ := hwhole r hr
      refine ⟨whole_mem_of_segments files segs hsegs r ?_ hn, hn, hz⟩
      rw [← hrec']
      exact List.mem_append_right _ hr
    · intro _
      have htotal := segments_len files segs hsegs hen
      rw [← hrec', graphLen_append, hinv.cumu_eq, hzero,
        graphLen_allRecords_full S st.built hinv.built_full] at htotal
      exact ⟨rfl, st.built.length, by rw [← htotal]; ring⟩

theorem flatMap_files (f : Finfo → List UInt8) (gs : List Graph) :
    gs.flatMap (fun g => g.files.flatMap f) = (allRecords gs).flatMap f := by
  induction gs with
  | nil => rfl
  | cons g gs ih => simp [allRecords, List.flatMap_append, List.flatMap_assoc]

theorem fragRun_index (item : Finfo) :
    ∀ (rs : List Finfo) (next : Int) (seq : Nat), FragRun item next seq rs →
      ∀ (k : Nat) (r : Finfo), rs[k]? = some r →
        r.Path = item.Path ∧ r.Info = item.Info ∧
        r.Name = fragmentName item.Info.name (seq + k) ∧
        r.SeekStart ≤ r.SeekEnd ∧ (k = 0 → r.SeekStart = next) ∧
        (∀ r', rs[k + 1]? = some r' → r'.SeekStart = r.SeekEnd + 1) ∧
        (k + 1 = rs.length → r.SeekEnd = item.Info.size - 1) := by
  intro rs
  induction rs with
  | nil => intro _ _ _ k r hr; simp at hr
  | cons x xs ih =>
    intro next seq h k r hr
    obtain ⟨hp, hn, hi, hs, hle, hlt, hrest⟩ := fragRun_head h
    cases k with
    | zero =>
      simp only [List.getElem?_cons_zero, Option.some.injEq] at hr
      subst hr
      refine ⟨hp, hi, hn, by omega, fun _ => hs, ?_, ?_⟩
      · intro r' hr'
        rw [List.getElem?_cons_succ] at hr'
        cases xs with
        | nil => simp at hr'
        | cons y ys =>
          simp only [List.getElem?_cons_zero, Option.some.injEq] at hr'
          subst hr'
          exact (fragRun_head hrest).2.2.2.1
      · intro hlen
        cases xs with
        | nil =>
          have hend : x.SeekEnd + 1 = item.Info.size := hrest
          omega
        | cons y ys => simp at hlen
    | succ k =>
      rw [List.getElem?_cons_succ] at hr
      obtain ⟨h1, h2, h3, h4, _, h6, h7⟩ := ih _ _ hrest k r hr
      refine ⟨h1, h2, ?_, h4, fun h0 => absurd h0 (Nat.succ_ne_zero k), ?_, ?_⟩
      · rw [h3]
        congr 1
        omega
      · intro r' hr'
        rw [List.getElem?_cons_succ] at hr'
        exact h6 r' hr'
      · intro hlen
        apply h7
        simp only [List.length_cons] at hlen
        omega

theorem fragRun_cover (item : Finfo) (seg : List Finfo) (hne : seg ≠ [])
    (h : FragRun item 0 0 seg) : FragmentsCover item seg := by
  refine ⟨hne, ?_⟩
  intro k r hr
  have := fragRun_index item seg 0 0 h k r hr
  simpa using this

/-- The fragments among the records of one segment. -/
theorem splitRuns_of_segments (S : Int) :
    ∀ (files : List Finfo) (segs : List (List Finfo)) (c : Int),
      SegmentsFrom S c files segs → (∀ f ∈ files, Enumerated f) →
      SplitRuns S c files (segs.map (List.filter isFragment)) := by
  intro files
  induction files with
  | nil =>
    intro segs c h _
    cases segs with
    | nil => trivial
    | cons seg segs => exact absurd h (by simp [SegmentsFrom])
  | cons item rest ih =>
    intro segs c h hen
    cases segs with
    | nil => exact absurd h (by simp [SegmentsFrom])
    | cons seg segs =>
      obtain ⟨h1, h2⟩ := h
      refine ⟨?_, ih segs _ h2 (fun f hf => hen f (List.mem_cons_of_mem _ hf))⟩
      rcases h1 with ⟨heq, hle⟩ | ⟨hne, hrun, hgt⟩
      · left
        subst heq
        refine ⟨hle, ?_⟩
        simp [isFragment, (hen item (List.mem_cons_self _ _)).1]
      · right
        have hall : seg.filter isFragment = seg := by
          rw [List.filter_eq_self]
          intro r hr
          simpa [isFragment] using fragRun_name_ne item seg 0 0 hrun r hr
        rw [hall]
        exact ⟨hgt, fragRun_cover item seg hne hrun⟩

/-! ## Termination without any assumption on names -/

theorem cutLoop_returns (S : Int) (item : Finfo) (hS : 0 < S)
    (hfit : S + item.Info.size < 2 ^ 63) :
    ∀ (fuel : Nat) (seekEnd : Int) (k : Nat) (st : PlanState),
      0 ≤ seekEnd → seekEnd ≤ item.Info.size - 1 →
      item.Info.size - 1 - seekEnd ≤ fuel * S → st.cumuSize = 0 →
      ∃ st', cutLoop S item fuel seekEnd k st = some st' ∧ 0 ≤ st'.cumuSize ∧
        st'.cumuSize < S := by
  intro fuel
  induction fuel with
  | zero =>
    intro seekEnd k st h0 hle hfuel hc
    have hnot : ¬ seekEnd < item.Info.size - 1 := by
      simp only [Nat.cast_zero, zero_mul] at hfuel
      omega
    exact ⟨st, cutLoop_exit S item 0 seekEnd k st (by omega) (by omega) hnot, by omega,
      by omega⟩
  | succ fuel ih =>
    intro seekEnd k st h0 hle hfuel hc
    by_cases hlt : seekEnd < item.Info.size - 1
    · obtain ⟨h1, h2, h3, h4⟩ :=
        nextSeekEnd_bounds S item.Info.size seekEnd hS (by omega) hfit (by omega) hlt
      have hmul : ((fuel + 1 : Nat) : Int) * S = fuel * S + S := by push_cast; ring
      have hstep := cutLoop_succ S item fuel seekEnd k st hS hfit h0 hlt hc
      by_cases hfull : nextSeekEnd S item.Info.size seekEnd - (seekEnd + 1) = S - 1
      · rw [if_pos hfull] at hstep
        have hpos : 0 ≤ nextSeekEnd S item.Info.size seekEnd := by omega
        have hrem : item.Info.size - 1 - nextSeekEnd S item.Info.size seekEnd ≤ fuel * S := by
          omega
        obtain ⟨st', hrun, hb⟩ := ih (nextSeekEnd S item.Info.size seekEnd) (k + 1)
          (closeGraph
            (st.graphFiles ++
              [mkFragment item k (seekEnd + 1) (nextSeekEnd S item.Info.size seekEnd)])
            { st with
              cumuSize := nextSeekEnd S item.Info.size seekEnd - (seekEnd + 1) + 1
              graphFiles := st.graphFiles ++
                [mkFragment item k (seekEnd + 1) (nextSeekEnd S item.Info.size seekEnd)] })
          hpos h2 hrem rfl
        exact ⟨st', by rw [hstep]; exact hrun, hb⟩
      · rw [if_neg hfull] at hstep
        have hend : nextSeekEnd S item.Info.size seekEnd = item.Info.size - 1 := by
          rcases h4 with h4 | h4
          · exact absurd h4 hfull
          · exact h4
        refine ⟨{ st with
            cumuSize := nextSeekEnd S item.Info.size seekEnd - (seekEnd + 1) + 1
            graphFiles := st.graphFiles ++
              [mkFragment item k (seekEnd + 1) (nextSeekEnd S item.Info.size seekEnd)] },
          ?_, ?_, ?_⟩
        · rw [hstep]
          exact cutLoop_exit S item fuel _ _ _ (by omega) (by omega) (by omega)
        · simp only; omega
        · simp only; omega
    · exact ⟨st, cutLoop_exit S item _ seekEnd k st (by omega) (by omega) hlt, by omega,
        by omega⟩

theorem planFile_returns (S : Int) (fuel : Nat) (st : PlanState) (item : Finfo)
    (hS : 0 < S) (h0 : 0 ≤ st.cumuSize) (hlt : st.cumuSize < S) (hsz : 0 ≤ item.Info.size)
    (hfit : S + item.Info.size < 2 ^ 63) (hfuel : item.Info.size ≤ fuel * S) :
    ∃ st', planFile fuel S st item = some st' ∧ 0 ≤ st'.cumuSize ∧ st'.cumuSize < S := by
  by_cases c1 : st.cumuSize + item.Info.size < S
  · exact ⟨_, planFile_lt fuel S st item h0 hsz hfit c1, by simp only; omega, c1⟩
  · by_cases c2 : st.cumuSize + item.Info.size = S
    · exact ⟨_, planFile_eq fuel S st item h0 hsz hfit c2, le_refl 0, hS⟩
    · have c3 : S < st.cumuSize + item.Info.size := by omega
      obtain ⟨st', hrun, hb⟩ := cutLoop_returns S item hS hfit fuel (S - st.cumuSize - 1) 1
        (closeGraph (st.graphFiles ++ [mkFragment item 0 0 (S - st.cumuSize - 1)])
          { st with
            graphFiles := st.graphFiles ++ [mkFragment item 0 0 (S - st.cumuSize - 1)] })
        (by omega) (by omega) (by omega) rfl
      exact ⟨st', by rw [planFile_gt fuel S st item h0 hlt hsz hfit c3]; exact hrun, hb⟩

theorem planFiles_returns_from (S : Int) (fuel : Nat) (hS : 0 < S) :
    ∀ (files : List Finfo) (st : PlanState), 0 ≤ st.cumuSize → st.cumuSize < S →
      (∀ f ∈ files, 0 ≤ f.Info.size) → (∀ f ∈ files, S + f.Info.size < 2 ^ 63) →
      (∀ f ∈ files, ceilDiv f.Info.size S ≤ fuel) →
      ∃ st', planFiles fuel S files st = some st' ∧ 0 ≤ st'.cumuSize ∧ st'.cumuSize < S := by
  intro files
  induction files with
  | nil =>
    intro st h0 hlt _ _ _
    exact ⟨st, rfl, h0, hlt⟩
  | cons item rest ih =>
    intro st h0 hlt hsz hfit hfuel
    obtain ⟨st1, h1, h10, h1lt⟩ := planFile_returns S fuel st item hS h0 hlt
      (hsz item (List.mem_cons_self _ _)) (hfit item (List.mem_cons_self _ _))
      (le_mul_of_ceilDiv_le S _ fuel hS (hfuel item (List.mem_cons_self _ _)))
    obtain ⟨st2, h2, hb⟩ := ih st1 h10 h1lt (fun f hf => hsz f (List.mem_cons_of_mem _ hf))
      (fun f hf => hfit f (List.mem_cons_of_mem _ hf))
      (fun f hf => hfuel f (List.mem_cons_of_mem _ hf))
    refine ⟨st2, ?_, hb⟩
    simp only [planFiles, h1]
    exact h2

/-! ## Fragment names can be read back -/

theorem digitChar_spec :
    ∀ m, m < 10 → (Nat.digitChar m).isDigit = true ∧ (Nat.digitChar m).toNat - 48 = m := by
  decide

theorem toDigitsCore_spec :
    ∀ (fuel n : Nat) (ds : List Char), n < fuel → (∀ c ∈ ds, c.isDigit = true) →
      (∀ c ∈ Nat.toDigitsCore 10 fuel n ds, c.isDigit = true) ∧
      (Nat.toDigitsCore 10 fuel n ds).foldl (fun acc c => 10 * acc + (c.toNat - 48)) 0 =
        ds.foldl (fun acc c => 10 * acc + (c.toNat - 48)) n := by
  intro fuel
  induction fuel with
  | zero => intro n ds h; omega
  | succ fuel ih =>
    intro n ds hn hds
    obtain ⟨hd1, hd2⟩ := digitChar_spec (n % 10) (Nat.mod_lt _ (by decide))
    have hds' : ∀ c ∈ Nat.digitChar (n % 10) :: ds, c.isDigit = true := by
      intro c hc
      rcases List.mem_cons.mp hc with hc | hc
      · rw [hc]; exact hd1
      · exact hds c hc
    unfold Nat.toDigitsCore
    simp only
    by_cases hq : n / 10 = 0
    · rw [if_pos hq]
      refine ⟨hds', ?_⟩
      simp only [List.foldl_cons, hd2]
      congr 1
      omega
    · rw [if_neg hq]
      obtain ⟨h1, h2⟩ := ih (n / 10) (Nat.digitChar (n % 10) :: ds) (by omega) hds'
      refine ⟨h1, ?_⟩
      rw [h2]
      simp only [List.foldl_cons, hd2]
      congr 1
      omega

theorem toDigits_spec (n : Nat) :
    (∀ c ∈ Nat.toDigits 10 n, c.isDigit = true) ∧ digitsValue (Nat.toDigits 10 n) = n := by
  obtain ⟨h1, h2⟩ := toDigitsCore_spec (n + 1) n [] (by omega) (by intro c hc; cases hc)
  exact ⟨h1, h2⟩

theorem digitsValue_zeros (k : Nat) (ds : List Char) :
    digitsValue (List.replicate k '0' ++ ds) = digitsValue ds := by
  unfold digitsValue
  induction k with
  | zero => rfl
  | succ k ih =>
    rw [List.replicate_succ, List.cons_append, List.foldl_cons]
    exact ih

theorem pad8_spec (n : Nat) :
    (∀ c ∈ (pad8 n).data, c.isDigit = true) ∧ 8 ≤ (pad8 n).data.length ∧
      digitsValue (pad8 n).data = n := by
  have hdata : (pad8 n).data =
      List.replicate (8 - (Nat.toDigits 10 n).length) '0' ++ Nat.toDigits 10 n := by
    unfold pad8
    rw [String.data_append]
    rfl
  obtain ⟨h1, h2⟩ := toDigits_spec n
  rw [hdata]
  refine ⟨?_, ?_, ?_⟩
  · intro c hc
    rcases List.mem_append.mp hc with hc | hc
    · rw [(List.mem_replicate.mp hc).2]
      decide
    · exact h1 c hc
  · rw [List.length_append, List.length_replicate]
    omega
  · rw [digitsValue_zeros, h2]

theorem splitSuffix_fragmentName (base : String) (k : Nat) :
    splitSuffix (fragmentName base k) = some (base, k) := by
  obtain ⟨h1, h2, h3⟩ := pad8_spec k
  have hrev : (fragmentName base k).data.reverse =
      (pad8 k).data.reverse ++ '.' :: base.data.reverse := by
    unfold fragmentName
    rw [String.data_append, String.data_append]
    simp
  have hall : ∀ c ∈ (pad8 k).data.reverse, Char.isDigit c = true := by
    intro c hc
    exact h1 c (List.mem_reverse.mp hc)
  have hdot : ¬ Char.isDigit '.' = true := by decide
  unfold splitSuffix
  simp only [hrev, List.takeWhile_append_of_pos hall, List.dropWhile_append_of_pos hall,
    List.takeWhile_cons_of_neg hdot, List.dropWhile_cons_of_neg hdot, List.append_nil,
    List.length_reverse, List.reverse_reverse, if_pos h2, h3]

/-! ## The merge of the planned records -/

theorem suffixEntry_none (base name : String) (c : List UInt8) (h : splitSuffix name = none) :
    suffixEntry base (name, c) = none := by
  simp only [suffixEntry, h]

theorem suffixEntry_some (base name b : String) (n : Nat) (c : List UInt8)
    (h : splitSuffix name = some (b, n)) :
    suffixEntry base (name, c) = if b = base then some (n, c) else none := by
  simp only [suffixEntry, h]

theorem pairs_of_forall₂ {α β : Type} {R : α → β → Prop} {l₁ : List α} {l₂ : List β}
    (h : List.Forall₂ R l₁ l₂) :
    ∃ P : List (α × β), P.map Prod.fst = l₁ ∧ P.map Prod.snd = l₂ ∧ ∀ p ∈ P, R p.1 p.2 := by
  induction h with
  | nil => exact ⟨[], rfl, rfl, by intro p hp; cases hp⟩
  | @cons a b l₁ l₂ hab _ ih =>
    obtain ⟨P, h1, h2, h3⟩ := ih
    refine ⟨(a, b) :: P, by simp [h1], by simp [h2], ?_⟩
    intro p hp
    rcases List.mem_cons.mp hp with hp | hp
    · subst hp; exact hab
    · exact h3 p hp

theorem fragRun_suffix (item : Finfo) :
    ∀ (seg : List Finfo) (next : Int) (k : Nat), FragRun item next k seg →
      ∀ r ∈ seg, ∃ j, splitSuffix r.Name = some (item.Info.name, j) := by
  intro seg
  induction seg with
  | nil => intro _ _ _ r hr; cases hr
  | cons x xs ih =>
    intro next k h r hr
    obtain ⟨_, hn, _, _, _, _, hrest⟩ := fragRun_head h
    rcases List.mem_cons.mp hr with hr | hr
    · subst hr
      exact ⟨k, by rw [hn]; exact splitSuffix_fragmentName _ _⟩
    · exact ih _ _ hrest r hr

/-- The two shapes of the records of a file. -/
theorem goodPair_cases (p : Finfo × List Finfo) (h : GoodPair p) :
    (p.2 = [p.1] ∧ splitSuffix p.1.Name = none) ∨
    (p.2 ≠ [p.1] ∧ p.2 ≠ [] ∧ FragRun p.1 0 0 p.2 ∧
      ∀ r ∈ p.2, ∃ j, splitSuffix r.Name = some (p.1.Info.name, j)) := by
  obtain ⟨hname, hplain, hseg⟩ := h
  rcases hseg with hseg | ⟨hne, hrun⟩
  · left
    exact ⟨hseg, by rw [hname]; exact hplain⟩
  · right
    have hsuf := fragRun_suffix p.1 p.2 0 0 hrun
    refine ⟨?_, hne, hrun, hsuf⟩
    intro heq
    obtain ⟨j, hj⟩ := hsuf p.1 (by rw [heq]; exact List.mem_singleton.mpr rfl)
    rw [hname, hplain] at hj
    cases hj

/-- The records of a file add nothing to the group of another name. -/
theorem suffixEntry_other (disk : String → List UInt8) (p : Finfo × List Finfo)
    (h : GoodPair p) (base : String) (hne : p.1.Info.name ≠ base) :
    p.2.filterMap (fun r => suffixEntry base (r.Name, recordBytes disk r)) = [] := by
  rw [List.filterMap_eq_nil_iff]
  intro r hr
  rcases goodPair_cases p h with ⟨heq, hnone⟩ | ⟨_, _, _, hsuf⟩
  · rw [heq, List.mem_singleton] at hr
    subst hr
    exact suffixEntry_none _ _ _ hnone
  · obtain ⟨j, hj⟩ := hsuf r hr
    rw [suffixEntry_some _ _ _ _ _ hj, if_neg hne]

theorem group_of_pairs (disk : String → List UInt8) :
    ∀ (P : List (Finfo × List Finfo)), (∀ p ∈ P, GoodPair p) →
      (P.map (fun p => p.1.Info.name)).Nodup → ∀ p ∈ P,
      (P.flatMap Prod.snd).filterMap
          (fun r => suffixEntry p.1.Info.name (r.Name, recordBytes disk r)) =
        p.2.filterMap (fun r => suffixEntry p.1.Info.name (r.Name, recordBytes disk r)) := by
  intro P
  induction P with
  | nil => intro _ _ p hp; cases hp
  | cons q P ih =>
    intro hgood hnd p hp
    rw [List.map_cons, List.nodup_cons] at hnd
    obtain ⟨hq, hnd'⟩ := hnd
    have hrest : ∀ p' ∈ P, GoodPair p' := fun p' hp' => hgood p' (List.mem_cons_of_mem _ hp')
    rw [List.flatMap_cons, List.filterMap_append]
    rcases List.mem_cons.mp hp with hp | hp
    · subst hp
      have hnil : (P.flatMap Prod.snd).filterMap
          (fun r => suffixEntry p.1.Info.name (r.Name, recordBytes disk r)) = [] := by
        rw [List.filterMap_eq_nil_iff]
        intro r hr
        obtain ⟨p', hp', hr'⟩ := List.mem_flatMap.mp hr
        have hne : p'.1.Info.name ≠ p.1.Info.name := by
          intro heq
          apply hq
          rw [← heq]
          exact List.mem_map.mpr ⟨p', hp', rfl⟩
        have := suffixEntry_other disk p' (hrest p' hp') _ hne
        exact (List.filterMap_eq_nil_iff.mp this) r hr'
      rw [hnil, List.append_nil]
    · have hne : q.1.Info.name ≠ p.1.Info.name := by
        intro heq
        apply hq
        rw [heq]
        exact List.mem_map.mpr ⟨p, hp, rfl⟩
      rw [suffixEntry_other disk q (hgood q (List.mem_cons_self _ _)) _ hne, List.nil_append]
      exact ih hrest hnd' p hp

theorem wholes_of_pairs :
    ∀ (P : List (Finfo × List Finfo)), (∀ p ∈ P, GoodPair p) →
      (P.flatMap Prod.snd).filter (fun r => (splitSuffix r.Name).isNone) =
        (P.filter (fun p => decide (p.2 = [p.1]))).map Prod.fst := by
  intro P
  induction P with
  | nil => intro _; rfl
  | cons q P ih =>
    intro hgood
    have hrest : ∀ p' ∈ P, GoodPair p' := fun p' hp' => hgood p' (List.mem_cons_of_mem _ hp')
    rw [List.flatMap_cons, List.filter_append, ih hrest]
    rcases goodPair_cases q (hgood q (List.mem_cons_self _ _)) with ⟨heq, hnone⟩ | ⟨hneq, _, _, hsuf⟩
    · rw [List.filter_cons_of_pos (by simpa using heq), heq]
      simp [hnone]
    · rw [List.filter_cons_of_neg (by simpa using hneq)]
      have hnil : q.2.filter (fun r => (splitSuffix r.Name).isNone) = [] := by
        rw [List.filter_eq_nil_iff]
        intro r hr
        obtain ⟨j, hj⟩ := hsuf r hr
        simp [hj]
      rw [hnil, List.nil_append]

theorem dedup_constant_append {α : Type} [DecidableEq α] (a : α) (L : List α) (ha : a ∉ L) :
    ∀ (l : List α), l ≠ [] → (∀ x ∈ l, x = a) → (l ++ L).dedup = a :: L.dedup := by
  intro l
  induction l with
  | nil => intro h; exact absurd rfl h
  | cons x xs ih =>
    intro _ hall
    have hx : x = a := hall x (List.mem_cons_self _ _)
    subst hx
    by_cases hxs : xs = []
    · subst hxs
      exact List.dedup_cons_of_not_mem ha
    · have hmem : x ∈ xs ++ L := by
        obtain ⟨y, ys, rfl⟩ := List.exists_cons_of_ne_nil hxs
        have := hall y (List.mem_cons_of_mem _ (List.mem_cons_self _ _))
        subst this
        exact List.mem_append_left _ (List.mem_cons_self _ _)
      rw [List.cons_append, List.dedup_cons_of_mem hmem]
      exact ih hxs (fun y hy => hall y (List.mem_cons_of_mem _ hy))

theorem bases_mem_of_pairs :
    ∀ (P : List (Finfo × List Finfo)), (∀ p ∈ P, GoodPair p) →
      ∀ b ∈ (P.flatMap Prod.snd).filterMap (fun r => (splitSuffix r.Name).map Prod.fst),
        b ∈ P.map (fun p => p.1.Info.name) := by
  intro P hgood b hb
  obtain ⟨r, hr, hrb⟩ := List.mem_filterMap.mp hb
  obtain ⟨p, hp, hrp⟩ := List.mem_flatMap.mp hr
  rcases goodPair_cases p (hgood p hp) with ⟨heq, hnone⟩ | ⟨_, _, _, hsuf⟩
  · rw [heq, List.mem_singleton] at hrp
    subst hrp
    rw [hnone] at hrb
    cases hrb
  · obtain ⟨j, hj⟩ := hsuf r hrp
    rw [hj] at hrb
    simp only [Option.map_some', Option.some.injEq] at hrb
    subst hrb
    exact List.mem_map.mpr ⟨p, hp, rfl⟩

theorem bases_of_pairs :
    ∀ (P : List (Finfo × List Finfo)), (∀ p ∈ P, GoodPair p) →
      (P.map (fun p => p.1.Info.name)).Nodup →
      ((P.flatMap Prod.snd).filterMap (fun r => (splitSuffix r.Name).map Prod.fst)).dedup =
        (P.filter (fun p => !decide (p.2 = [p.1]))).map (fun p => p.1.Info.name) := by
  intro P
  induction P with
  | nil => intro _ _; rfl
  | cons q P ih =>
    intro hgood hnd
    rw [List.map_cons, List.nodup_cons] at hnd
    obtain ⟨hq, hnd'⟩ := hnd
    have hrest : ∀ p' ∈ P, GoodPair p' := fun p' hp' => hgood p' (List.mem_cons_of_mem _ hp')
    rw [List.flatMap_cons, List.filterMap_append]
    rcases goodPair_cases q (hgood q (List.mem_cons_self _ _)) with ⟨heq, hnone⟩ | ⟨hneq, hne, _, hsuf⟩
    · rw [List.filter_cons_of_neg (by simpa using heq), ← ih hrest hnd', heq]
      simp [hnone]
    · rw [List.filter_cons_of_pos (by simpa using hneq), List.map_cons, ← ih hrest hnd']
      apply dedup_constant_append
      · intro hmem
        exact hq (bases_mem_of_pairs P hrest _ hmem)
      · intro hnil
        obtain ⟨y, ys, hy⟩ := List.exists_cons_of_ne_nil hne
        obtain ⟨j, hj⟩ := hsuf y (by rw [hy]; exact List.mem_cons_self _ _)
        rw [hy, List.filterMap_cons, hj] at hnil
        simp at hnil
      · intro x hx
        obtain ⟨r, hr, hrx⟩ := List.mem_filterMap.mp hx
        obtain ⟨j, hj⟩ := hsuf r hr
        rw [hj] at hrx
        simp only [Option.map_some', Option.some.injEq] at hrx
        exact hrx.symm

theorem fragRun_group (disk : String → List UInt8) (item : Finfo) :
    ∀ (seg : List Finfo) (next : Int) (k : Nat), FragRun item next k seg →
      (seg.filterMap (fun r => suffixEntry item.Info.name (r.Name, recordBytes disk r))).map
          Prod.fst = List.range' k seg.length ∧
      (seg.filterMap (fun r => suffixEntry item.Info.name (r.Name, recordBytes disk r))).map
          Prod.snd = seg.map (recordBytes disk) := by
  intro seg
  induction seg with
  | nil => intro _ _ _; exact ⟨rfl, rfl⟩
  | cons x xs ih =>
    intro next k h
    obtain ⟨_, hn, _, _, _, _, hrest⟩ := fragRun_head h
    obtain ⟨h1, h2⟩ := ih _ _ hrest
    have hx : suffixEntry item.Info.name (x.Name, recordBytes disk x) =
        some (k, recordBytes disk x) := by
      rw [suffixEntry_some _ _ _ _ _ (by rw [hn]; exact splitSuffix_fragmentName _ _),
        if_pos rfl]
    rw [List.filterMap_cons, hx]
    simp only [List.map_cons, List.length_cons, h1, h2]
    exact ⟨by rw [List.range'_succ], trivial⟩

/-- The group of a split file, sorted by suffix and concatenated, is the file. -/
theorem merged_group_eq_file (disk : String → List UInt8) (item : Finfo) (seg : List Finfo)
    (hlen : ((disk item.Path).length : Int) = item.Info.size) (h : FragRun item 0 0 seg) :
    ((seg.filterMap (fun r => suffixEntry item.Info.name (r.Name, recordBytes disk r))
        ).insertionSort (fun x y => x.1 ≤ y.1)).flatMap Prod.snd = disk item.Path := by
  obtain ⟨h1, h2⟩ := fragRun_group disk item seg 0 0 h
  have hsorted : List.Sorted (fun x y : Nat × List UInt8 => x.1 ≤ y.1)
      (seg.filterMap (fun r => suffixEntry item.Info.name (r.Name, recordBytes disk r))) := by
    have hp : List.Pairwise (fun a b : Nat => a ≤ b) (List.range' 0 seg.length) :=
      (List.pairwise_lt_range' 0 seg.length).imp (fun h => Nat.le_of_lt h)
    rw [← h1, List.pairwise_map] at hp
    exact hp
  rw [List.Sorted.insertionSort_eq hsorted]
  have hflat : ∀ (L : List (Nat × List UInt8)), L.flatMap Prod.snd = (L.map Prod.snd).flatten := by
    intro L
    induction L with
    | nil => rfl
    | cons a L ih => simp [List.flatMap_cons, ih]
  rw [hflat, h2]
  have hbytes : seg.flatMap (recordBytes disk) = disk item.Path :=
    fragRun_bytes disk item hlen seg 0 0 (le_refl 0) h
  rw [← hbytes]
  rfl

/-- The last record planned is the last input file or one of its fragments. -/
theorem last_record_of_segments (files : List Finfo) (segs : List (List Finfo))
    (h : List.Forall₂ SegmentOf files segs) :
    ∀ r, segs.flatten.getLast? = some r →
      files.getLast? = some r ∨ r.Name ≠ r.Info.name := by
  induction h with
  | nil => intro r hr; simp at hr
  | @cons item seg rest segs' hseg hrest ih =>
    intro r hr
    rw [List.flatten_cons, List.getLast?_append] at hr
    cases hlast : segs'.flatten.getLast? with
    | some r' =>
      rw [hlast] at hr
      simp only [Option.or_some, Option.some.injEq] at hr
      subst hr
      rcases ih r' hlast with h1 | h1
      · left
        cases rest with
        | nil => simp at h1
        | cons y ys => rw [List.getLast?_cons_cons]; exact h1
      · exact Or.inr h1
    | none =>
      rw [hlast] at hr
      simp only [Option.none_or] at hr
      have hnil : segs'.flatten = [] := List.getLast?_eq_none_iff.mp hlast
      have hrest_nil : rest = [] := by
        cases hrest with
        | nil => rfl
        | @cons y seg' ys segs'' hy _ =>
          exfalso
          rw [List.flatten_cons] at hnil
          have hseg'_nil : seg' = [] := (List.append_eq_nil.mp hnil).1
          rcases hy with hy | ⟨hy, _⟩
          · rw [hy] at hseg'_nil; cases hseg'_nil
          · exact hy hseg'_nil
      subst hrest_nil
      rcases hseg with hseg | ⟨_, hrun⟩
      · subst hseg
        simp only [List.getLast?_singleton, Option.some.injEq] at hr
        subst hr
        left; rfl
      · right
        exact fragRun_name_ne item seg 0 0 hrun r (List.mem_of_getLast?_eq_some hr)

theorem merge_of_pairs (disk : String → List UInt8) (P : List (Finfo × List Finfo))
    (hgood : ∀ p ∈ P, GoodPair p)
    (hlen : ∀ p ∈ P, p.2 ≠ [p.1] → ((disk p.1.Path).length : Int) = p.1.Info.size)
    (hnd : (P.map (fun p => p.1.Info.name)).Nodup) :
    List.Perm (Merge ((P.flatMap Prod.snd).map (fun r => (r.Name, recordBytes disk r))))
      (P.map (fun p => (p.1.Info.name, disk p.1.Path))) := by
  have hwhole : ((P.flatMap Prod.snd).map (fun r => (r.Name, recordBytes disk r))).filter
      (fun f => (splitSuffix f.1).isNone) =
      (P.filter (fun p => decide (p.2 = [p.1]))).map
        (fun p => (p.1.Info.name, disk p.1.Path)) := by
    rw [List.filter_map]
    have hcomp : ((fun f : String × List UInt8 => (splitSuffix f.1).isNone) ∘
        (fun r : Finfo => (r.Name, recordBytes disk r))) =
        (fun r : Finfo => (splitSuffix r.Name).isNone) := rfl
    rw [hcomp, wholes_of_pairs P hgood, List.map_map]
    apply List.map_congr_left
    intro q hq
    have hqP : q ∈ P := (List.mem_filter.mp hq).1
    have hname := (hgood q hqP).1
    show (q.1.Name, recordBytes disk q.1) = (q.1.Info.name, disk q.1.Path)
    rw [recordBytes_whole disk q.1 hname, hname]
  have hbases : (((P.flatMap Prod.snd).map (fun r => (r.Name, recordBytes disk r))).filterMap
      (fun f => (splitSuffix f.1).map Prod.fst)).dedup =
      (P.filter (fun p => !decide (p.2 = [p.1]))).map (fun p => p.1.Info.name) := by
    rw [List.filterMap_map]
    exact bases_of_pairs P hgood hnd
  have hgroup : ∀ base, suffixGroup
      ((P.flatMap Prod.snd).map (fun r => (r.Name, recordBytes disk r))) base =
      (P.flatMap Prod.snd).filterMap
        (fun r => suffixEntry base (r.Name, recordBytes disk r)) := by
    intro base
    unfold suffixGroup
    rw [List.filterMap_map]
    rfl
  have hsplit : ((P.filter (fun p => !decide (p.2 = [p.1]))).map (fun p => p.1.Info.name)).map
      (fun base => (base, ((suffixGroup
        ((P.flatMap Prod.snd).map (fun r => (r.Name, recordBytes disk r))) base).insertionSort
          (fun x y => x.1 ≤ y.1)).flatMap Prod.snd)) =
      (P.filter (fun p => !decide (p.2 = [p.1]))).map
        (fun p => (p.1.Info.name, disk p.1.Path)) := by
    rw [List.map_map]
    apply List.map_congr_left
    intro q hq
    obtain ⟨hqP, hqs⟩ := List.mem_filter.mp hq
    have hneq : q.2 ≠ [q.1] := by simpa using hqs
    rcases goodPair_cases q (hgood q hqP) with ⟨heq, _⟩ | ⟨_, _, hrun, _⟩
    · exact absurd heq hneq
    · show (q.1.Info.name, _) = (q.1.Info.name, disk q.1.Path)
      rw [hgroup, group_of_pairs disk P hgood hnd q hqP,
        merged_group_eq_file disk q.1 q.2 (hlen q hqP hneq) hrun]
  unfold Merge
  simp only
  rw [hwhole, hbases, hsplit, ← List.map_append]
  exact (List.filter_append_perm (fun p => decide (p.2 = [p.1])) P).map _

/-- Unless the input ends with an empty file and has a total size that is a multiple of the
slice size, every record planned is in an emitted graph. -/
theorem planGraphs_nothing_dropped (os : PaddingOS) (fuel : Nat) (S : Int)
    (parentPath : String) (padding : List Bool) (files : List Finfo) (hS : 0 < S)
    (hen : ∀ f ∈ files, Enumerated f) (hfit : ∀ f ∈ files, S + f.Info.size < 2 ^ 63)
    (hfuel : ∀ f ∈ files, ceilDiv f.Info.size S ≤ fuel)
    (hlast : ∀ f, files.getLast? = some f →
      0 < f.Info.size ∨ ¬ S ∣ (files.map (fun f => f.Info.size)).sum) :
    ∃ gs segs pad, planGraphs os fuel S parentPath padding files = some gs ∧
      List.Forall₂ SegmentOf files segs ∧ allRecords gs = segs.flatten ++ pad ∧
      (pad = [] ∨ (padding.head? = some true ∧
        ∃ f size, generateRandomPaddingFile os parentPath size = some f ∧ pad = [f])) := by
  obtain ⟨gs, segs, dropped, pad, hrun, hsegs', hrec, hdrop, hdvd, hpadcase⟩ :=
    planGraphs_records os fuel S parentPath padding files hS hen hfit hfuel
  have hsegs := segmentsFrom_forall₂ S files segs 0 hsegs'
  refine ⟨gs, segs, pad, hrun, hsegs, ?_, hpadcase⟩
  have hnil : dropped = [] := by
    by_contra hne
    obtain ⟨hpadnil, hdiv⟩ := hdvd hne
    obtain ⟨r, hr⟩ : ∃ r, dropped.getLast? = some r := by
      cases h : dropped.getLast? with
      | none => exact absurd (List.getLast?_eq_none_iff.mp h) hne
      | some r => exact ⟨r, rfl⟩
    obtain ⟨_, hname, hzero⟩ := hdrop r (List.mem_of_getLast?_eq_some hr)
    have hflat : segs.flatten.getLast? = some r := by
      have h2 : (allRecords gs ++ dropped).getLast? = some r := by
        rw [List.getLast?_append, hr]
        rfl
      rw [hrec, hpadnil, List.append_nil] at h2
      exact h2
    rcases last_record_of_segments files segs hsegs r hflat with h | h
    · rcases hlast r h with h' | h'
      · omega
      · exact h' hdiv
    · exact h hname
  rw [← hrec, hnil, List.append_nil]

/-- When the guards pass and the graph count is not zero, the graphs `ChunkMulti` hands to the
builder are those of the planner. -/
theorem ChunkMulti_built (env : ChunkEnv) (fuel : Nat) (sliceSize : Int) (parentPath : String)
    (targetsPath : List String) (parallel : Int) (padding : List Bool) (sliceTotal : Int)
    (gs : List Graph)
    (hcheck : configCheck sliceSize parentPath targetsPath parallel = none)
    (hcount : env.GetGraphCount targetsPath sliceSize = .ok sliceTotal) (hne : sliceTotal ≠ 0)
    (hplan : planGraphs env.os fuel sliceSize parentPath padding
      (env.GetFileListAsync targetsPath) = some gs) :
    ∃ r, ChunkMulti env fuel sliceSize parentPath targetsPath parallel padding = some r ∧
      r.built = gs := by
  unfold ChunkMulti
  simp only [hcheck, hcount, if_neg hne, hplan]
  cases env.writeFileDescs with
  | none => exact ⟨_, rfl, rfl⟩
  | some w =>
    cases w with
    | none => exact ⟨_, rfl, rfl⟩
    | some e => exact ⟨_, rfl, rfl⟩

/-! ## The claims -/

/-- C1, refuted as stated.  With a slice size of `2^63 - 1` and two files of `2^62` bytes the
sum `cumuSize + fileSize` overflows `int64` at the second file, both files are accumulated
under a negative `cumuSize` and no graph is built, although the input holds `2^63` bytes:
the bytes of the emitted records are not those of the input. -/
theorem planGraphs_bytes_overflow :
    planGraphs failingOS 2 (2 ^ 63 - 1) "/data" []
        [sampleFile "a" (2 ^ 62), sampleFile "b" (2 ^ 62)] = some [] ∧
      ¬ (∀ disk : String → List UInt8,
        (∀ f ∈ [sampleFile "a" (2 ^ 62), sampleFile "b" (2 ^ 62)],
          f.Name = f.Info.name ∧ ((disk f.Path).length : Int) = f.Info.size) →
        ∀ gs, planGraphs failingOS 2 (2 ^ 63 - 1) "/data" []
            [sampleFile "a" (2 ^ 62), sampleFile "b" (2 ^ 62)] = some gs →
          gs.flatMap (fun g => g.files.flatMap (recordBytes disk)) =
            [sampleFile "a" (2 ^ 62), sampleFile "b" (2 ^ 62)].flatMap
              (fun f => disk f.Path)) := by
  refine ⟨by decide, ?_⟩
  intro h
  have key : ∀ (n : Nat) (disk : String → List UInt8),
      (∀ path, (disk path).length = n) → (n : Int) = 2 ^ 62 → False := by
    intro n disk hd hn
    have h1 := h disk
      (by
        intro f hf
        rw [List.mem_cons, List.mem_singleton] at hf
        rcases hf with rfl | rfl
        · exact ⟨rfl, by rw [hd]; exact hn⟩
        · exact ⟨rfl, by rw [hd]; exact hn⟩)
      [] (by decide)
    have h2 := congrArg List.length h1
    simp only [List.flatMap_nil, List.flatMap_cons, List.length_nil, List.length_append,
      hd] at h2
    have hpos : (0 : Int) < 2 ^ 62 := by norm_num
    omega
  exact key (2 ^ 62) (fun _ => List.replicate (2 ^ 62) 0)
    (fun _ => List.length_replicate _ _) (by norm_num)

/-- C1, amended. For a positive slice size and enumerated input files whose sizes are the
lengths of their contents, with `sliceSize + fileSize < 2^63` for every file, the unpadded
planner returns graphs, numbered in emission order, such that concatenating the bytes denoted
by their records, graph after graph and record after record, gives exactly the concatenation
of the contents of the input files in enumeration order. -/
theorem planGraphs_bytes_eq_input (os : PaddingOS) (disk : String → List UInt8) (fuel : Nat)
    (S : Int) (parentPath : String) (padding : List Bool) (files : List Finfo) (hS : 0 < S)
    (hfiles : ∀ f ∈ files,
      f.Name = f.Info.name ∧ ((disk f.Path).length : Int) = f.Info.size)
    (hfit : ∀ f ∈ files, S + f.Info.size < 2 ^ 63)
    (hfuel : ∀ f ∈ files, ceilDiv f.Info.size S ≤ fuel)
    (hpad : padding.head? ≠ some true) :
    ∃ gs, planGraphs os fuel S parentPath padding files = some gs ∧
      gs.map Graph.index = List.range gs.length ∧
      gs.flatMap (fun g => g.files.flatMap (recordBytes disk)) =
        files.flatMap (fun f => disk f.Path) := by
  have hen : ∀ f ∈ files, Enumerated f := by
    intro f hf
    obtain ⟨hn, hl⟩ := hfiles f hf
    exact ⟨hn, by omega⟩
  obtain ⟨gs, segs, dropped, hrun, hsegs, hrec, hdrop, _, _, hidx⟩ :=
    planGraphs_unpadded_spec os fuel S parentPath padding files hS hen hfit hfuel hpad
  refine ⟨gs, hrun, hidx, ?_⟩
  have hnil : dropped.flatMap (recordBytes disk) = [] := by
    rw [List.flatMap_eq_nil_iff]
    intro r hr
    obtain ⟨hmem, hn, hz⟩ := hdrop r hr
    rw [recordBytes_whole disk r hn]
    have := (hfiles r hmem).2
    apply List.eq_nil_of_length_eq_zero
    omega
  rw [flatMap_files, ← segments_bytes disk files segs hsegs hfiles, ← hrec,
    List.flatMap_append, hnil, List.append_nil]

/-- The amended claim C1 on the two files of 10 and 25 bytes with slices of 20 bytes. -/
theorem planGraphs_bytes_eq_input_witness :
    ∃ gs, planGraphs failingOS 2 20 "/data" []
        [sampleFile "file1" 10, sampleFile "file2" 25] = some gs ∧
      gs.map Graph.index = List.range gs.length ∧
      gs.flatMap (fun g => g.files.flatMap
          (recordBytes (sampleDisk [sampleFile "file1" 10, sampleFile "file2" 25]))) =
        [sampleFile "file1" 10, sampleFile "file2" 25].flatMap
          (fun f => sampleDisk [sampleFile "file1" 10, sampleFile "file2" 25] f.Path) :=
  planGraphs_bytes_eq_input failingOS
    (sampleDisk [sampleFile "file1" 10, sampleFile "file2" 25]) 2 20 "/data" []
    [sampleFile "file1" 10, sampleFile "file2" 25] (by decide) (by decide) (by decide)
    (by decide) (by decide)

/-- C2, refuted as stated.  With a slice size of `2^63 - 1`, four files of `2^62` bytes and
one of 5 bytes, `cumuSize` overflows `int64` and comes back to 0 after the fourth file: the
only graph built holds all five files, `2^64 + 5` bytes, more than the slice size. -/
theorem planGraphs_lengths_overflow :
    (planGraphs failingOS 2 (2 ^ 63 - 1) "/data" []
        [sampleFile "a" (2 ^ 62), sampleFile "b" (2 ^ 62), sampleFile "c" (2 ^ 62),
          sampleFile "d" (2 ^ 62), sampleFile "e" 5]).map
        (fun gs => gs.map (fun g => (g.files.length, graphLen g.files))) =
      some [(5, 2 ^ 64 + 5)] ∧
    ¬ ((2 : Int) ^ 64 + 5 ≤ 2 ^ 63 - 1) := by
  refine ⟨by decide, by decide⟩

/-- C2, amended. For a positive slice size and enumerated input files, with
`sliceSize + fileSize < 2^63` for every file and without padding, every graph handed to the
builder other than the last has a total byte length of exactly the slice size, and the last
one has a total byte length that is positive and at most the slice size. -/
theorem planGraphs_graph_lengths (os : PaddingOS) (fuel : Nat) (S : Int) (parentPath : String)
    (padding : List Bool) (files : List Finfo) (hS : 0 < S)
    (hen : ∀ f ∈ files, Enumerated f) (hfit : ∀ f ∈ files, S + f.Info.size < 2 ^ 63)
    (hfuel : ∀ f ∈ files, ceilDiv f.Info.size S ≤ fuel)
    (hpad : padding.head? ≠ some true) :
    ∃ gs, planGraphs os fuel S parentPath padding files = some gs ∧
      (∀ g ∈ gs.dropLast, graphLen g.files = S) ∧
      (∀ g, gs.getLast? = some g → 0 < graphLen g.files ∧ graphLen g.files ≤ S) := by
  obtain ⟨gs, _, _, hrun, _, _, _, hfull, hlast, _⟩ :=
    planGraphs_unpadded_spec os fuel S parentPath padding files hS hen hfit hfuel hpad
  exact ⟨gs, hrun, hfull, hlast⟩

/-- The scenario of claim C2: files of 10 and 25 bytes and slices of 20 bytes give graph 0 with
the whole of `file1` and bytes 0..9 of `file2` (20 bytes) and graph 1 with bytes 10..24 of
`file2` (15 bytes). -/
theorem planGraphs_graph_lengths_witness :
    planGraphs failingOS 2 20 "/data" [] [sampleFile "file1" 10, sampleFile "file2" 25] =
        some [{ files := [sampleFile "file1" 10, mkFragment (sampleFile "file2" 25) 0 0 9],
                index := 0 },
              { files := [mkFragment (sampleFile "file2" 25) 1 10 24], index := 1 }] ∧
      graphLen [sampleFile "file1" 10, mkFragment (sampleFile "file2" 25) 0 0 9] = 20 ∧
      graphLen [mkFragment (sampleFile "file2" 25) 1 10 24] = 15 ∧
      ∃ gs, planGraphs failingOS 2 20 "/data" []
          [sampleFile "file1" 10, sampleFile "file2" 25] = some gs ∧
        (∀ g ∈ gs.dropLast, graphLen g.files = 20) ∧
        (∀ g, gs.getLast? = some g → 0 < graphLen g.files ∧ graphLen g.files ≤ 20) :=
  ⟨by decide, by decide, by decide,
    planGraphs_graph_lengths failingOS 2 20 "/data" []
      [sampleFile "file1" 10, sampleFile "file2" 25] (by decide) (by decide) (by decide)
      (by decide) (by decide)⟩

/-- C3, refuted as stated.  With a slice size of `2^62 + 1` and one file of `2^62 + 2` bytes,
`seekStart + sliceSize` overflows `int64` in the fragment loop: the file is cut into five
fragments, the second of which starts at `2^62 + 1` and ends at `-2^63 + 1`, before its
start, and the third of which starts at a negative offset. -/
theorem planGraphs_fragments_overflow :
    (planGraphs failingOS 4 (2 ^ 62 + 1) "/data" [] [sampleFile "a" (2 ^ 62 + 2)]).map
        (fun gs => (allRecords gs).map (fun r => (r.Name, r.SeekStart, r.SeekEnd))) =
      some [("a.00000000", 0, 2 ^ 62), ("a.00000001", 2 ^ 62 + 1, -(2 ^ 63) + 1),
        ("a.00000002", -(2 ^ 63) + 2, -(2 ^ 62) + 2), ("a.00000003", -(2 ^ 62) + 3, 3),
        ("a.00000004", 4, 2 ^ 62 + 1)] ∧
    ¬ ((2 : Int) ^ 62 + 1 ≤ -(2 ^ 63) + 1) := by
  refine ⟨by decide, by decide⟩

/-- C3, amended. For a positive slice size and enumerated input files, with
`sliceSize + fileSize < 2^63` for every file, with or without padding: an input file reached
with `c` bytes in the open graph is split exactly when `c + fileSize > sliceSize`, and the
fragments among the records of the emitted graphs, in emission order, are the concatenation,
file after file, of the runs of the files that are split; the run of a file that is split is
the non-empty ordered list of its fragments, named `<originalFileName>.%08d` with numbers
0, 1, 2, .., the first starting at offset 0, each later one starting at the `SeekEnd + 1` of
its predecessor, each with `SeekStart ≤ SeekEnd`, the last one ending at `fileSize - 1`.
Every other emitted record is an input file as it was enumerated, or the placeholder. -/
theorem planGraphs_fragments_cover (os : PaddingOS) (fuel : Nat) (S : Int)
    (parentPath : String) (padding : List Bool) (files : List Finfo) (hS : 0 < S)
    (hen : ∀ f ∈ files, Enumerated f) (hfit : ∀ f ∈ files, S + f.Info.size < 2 ^ 63)
    (hfuel : ∀ f ∈ files, ceilDiv f.Info.size S ≤ fuel) :
    ∃ gs runs, planGraphs os fuel S parentPath padding files = some gs ∧
      SplitRuns S 0 files runs ∧ (allRecords gs).filter isFragment = runs.flatten ∧
      ∀ r ∈ allRecords gs, isFragment r = false →
        r ∈ files ∨ ∃ size, generateRandomPaddingFile os parentPath size = some r := by
  obtain ⟨gs, segs, dropped, pad, hrun, hsegs, hrec, hdrop, _, hpadcase⟩ :=
    planGraphs_records os fuel S parentPath padding files hS hen hfit hfuel
  refine ⟨gs, segs.map (List.filter isFragment), hrun,
    splitRuns_of_segments S files segs 0 hsegs hen, ?_, ?_⟩
  swap
  · intro r hr hfrag
    have hname : r.Name = r.Info.name := by simpa [isFragment] using hfrag
    have hmem : r ∈ segs.flatten ++ pad := by
      rw [← hrec]
      exact List.mem_append_left _ hr
    rcases List.mem_append.mp hmem with hmem | hmem
    · exact Or.inl (whole_mem_of_segments files segs
        (segmentsFrom_forall₂ S files segs 0 hsegs) r hmem hname)
    · rcases hpadcase with h | ⟨_, f, size, hgen, h⟩
      · rw [h] at hmem; cases hmem
      · rw [h, List.mem_singleton] at hmem
        subst hmem
        exact Or.inr ⟨size, hgen⟩
  have hnil : dropped.filter isFragment = [] := by
    rw [List.filter_eq_nil_iff]
    intro r hr
    simp [isFragment, (hdrop r hr).2.1]
  have hpadnil : pad.filter isFragment = [] := by
    rcases hpadcase with h | ⟨_, f, size, hgen, h⟩
    · rw [h]; rfl
    · rw [h, List.filter_eq_nil_iff]
      intro r hr
      rw [List.mem_singleton] at hr
      subst hr
      simp [isFragment, generateRandomPaddingFile_name os parentPath size r hgen]
  have h := congrArg (List.filter isFragment) hrec
  rw [List.filter_append, List.filter_append, hnil, hpadnil, List.append_nil,
    List.append_nil, List.filter_flatten] at h
  exact h

/-- The amended claim C3 on a file of 25 bytes after one of 10 bytes, with slices of 20 bytes
and a placeholder appended to the last graph. -/
theorem planGraphs_fragments_cover_witness :
    ∃ gs runs, planGraphs workingOS 2 20 "/data" [true]
        [sampleFile "file1" 10, sampleFile "file2" 25] = some gs ∧
      SplitRuns 20 0 [sampleFile "file1" 10, sampleFile "file2" 25] runs ∧
      (allRecords gs).filter isFragment = runs.flatten ∧
      ∀ r ∈ allRecords gs, isFragment r = false →
        r ∈ [sampleFile "file1" 10, sampleFile "file2" 25] ∨
          ∃ size, generateRandomPaddingFile workingOS "/data" size = some r :=
  planGraphs_fragments_cover workingOS 2 20 "/data" [true]
    [sampleFile "file1" 10, sampleFile "file2" 25] (by decide) (by decide) (by decide)
    (by decide)

/-- C10, refuted as stated.  With a slice size of `2^62 + 1` and one file of `2^62 + 2` bytes,
for which `⌈fileSize / sliceSize⌉ = 2`, the first iteration of the fragment loop takes
`seekEnd` from `2^62` down to `-2^63 + 1`, because `seekStart + sliceSize` overflows `int64`,
and the loop needs four iterations. -/
theorem planFile_iterations_overflow :
    nextSeekEnd (2 ^ 62 + 1) (2 ^ 62 + 2) (2 ^ 62) = -(2 ^ 63) + 1 ∧
    ceilDiv (2 ^ 62 + 2) (2 ^ 62 + 1) = 2 ∧
    planFile 2 (2 ^ 62 + 1) PlanState.init (sampleFile "a" (2 ^ 62 + 2)) = none ∧
    planFile 3 (2 ^ 62 + 1) PlanState.init (sampleFile "a" (2 ^ 62 + 2)) = none ∧
    (planFile 4 (2 ^ 62 + 1) PlanState.init (sampleFile "a" (2 ^ 62 + 2))).isSome = true := by
  refine ⟨by decide, by decide, by decide, by decide, by decide⟩

/-- C10, amended. For a slice size of at least 1 and files of non-negative sizes with
`sliceSize + fileSize < 2^63` the planning loop terminates: it returns when every fragment
loop may run `⌈fileSize / sliceSize⌉` times; on entry to each file the accumulator `c`
satisfies `0 ≤ c < sliceSize`, so that the first cut `sliceSize - c` is positive, and that
file is planned with at most `⌈fileSize / sliceSize⌉` iterations of the fragment loop; and
every iteration of the fragment loop strictly increases `seekEnd` without passing
`fileSize - 1`. -/
theorem planFiles_terminates (fuel : Nat) (S : Int) (files : List Finfo) (hS : 1 ≤ S)
    (hsize : ∀ f ∈ files, 0 ≤ f.Info.size) (hfit : ∀ f ∈ files, S + f.Info.size < 2 ^ 63)
    (hfuel : ∀ f ∈ files, ceilDiv f.Info.size S ≤ fuel) :
    (∃ st, planFiles fuel S files PlanState.init = some st) ∧
    (∀ os parentPath padding, ∃ gs, planGraphs os fuel S parentPath padding files = some gs) ∧
    (∀ pre item post, files = pre ++ item :: post →
      ∃ st, planFiles fuel S pre PlanState.init = some st ∧
        0 ≤ st.cumuSize ∧ st.cumuSize < S ∧ 0 < S - st.cumuSize ∧
        ∃ st', planFile (ceilDiv item.Info.size S) S st item = some st') ∧
    (∀ f ∈ files, ∀ seekEnd : Int, -(2 ^ 63) ≤ seekEnd → seekEnd < f.Info.size - 1 →
      seekEnd < nextSeekEnd S f.Info.size seekEnd ∧
        nextSeekEnd S f.Info.size seekEnd ≤ f.Info.size - 1) := by
  have hS' : 0 < S := by omega
  obtain ⟨st, hrun, _, _⟩ := planFiles_returns_from S fuel hS' files PlanState.init
    (le_refl 0) hS' hsize hfit hfuel
  refine ⟨⟨st, hrun⟩, ?_, ?_, ?_⟩
  · intro os parentPath padding
    exact ⟨(finishPlan os S parentPath padding st).built, by simp only [planGraphs, hrun]⟩
  · intro pre item post hsplit
    have hpre : ∀ f ∈ pre, f ∈ files := by
      intro f hf
      rw [hsplit]
      exact List.mem_append_left _ hf
    have hitem : item ∈ files := by
      rw [hsplit]
      exact List.mem_append_right _ (List.mem_cons_self _ _)
    obtain ⟨st1, h1, h10, h1lt⟩ := planFiles_returns_from S fuel hS' pre PlanState.init
      (le_refl 0) hS' (fun f hf => hsize f (hpre f hf)) (fun f hf => hfit f (hpre f hf))
      (fun f hf => hfuel f (hpre f hf))
    obtain ⟨st2, h2, _⟩ := planFile_returns S (ceilDiv item.Info.size S) st1 item hS' h10
      h1lt (hsize item hitem) (hfit item hitem) (le_mul_of_ceilDiv_le S _ _ hS' (le_refl _))
    exact ⟨st1, h1, h10, h1lt, by omega, st2, h2⟩
  · intro f hf seekEnd hmin hlt
    obtain ⟨h1, h2, _⟩ :=
      nextSeekEnd_bounds S f.Info.size seekEnd hS' (hsize f hf) (hfit f hf) hmin hlt
    exact ⟨h1, h2⟩

/-- The amended claim C10 on files of 10, 0 and 25 bytes with slices of 20 bytes. -/
theorem planFiles_terminates_witness :
    (∃ st, planFiles 2 20 [sampleFile "file1" 10, sampleFile "empty" 0, sampleFile "file2" 25]
      PlanState.init = some st) ∧
    (∀ os parentPath padding, ∃ gs, planGraphs os 2 20 parentPath padding
      [sampleFile "file1" 10, sampleFile "empty" 0, sampleFile "file2" 25] = some gs) ∧
    (∀ pre item post,
      [sampleFile "file1" 10, sampleFile "empty" 0, sampleFile "file2" 25] =
        pre ++ item :: post →
      ∃ st, planFiles 2 20 pre PlanState.init = some st ∧
        0 ≤ st.cumuSize ∧ st.cumuSize < 20 ∧ 0 < 20 - st.cumuSize ∧
        ∃ st', planFile (ceilDiv item.Info.size 20) 20 st item = some st') ∧
    (∀ f ∈ [sampleFile "file1" 10, sampleFile "empty" 0, sampleFile "file2" 25],
      ∀ seekEnd : Int, -(2 ^ 63) ≤ seekEnd → seekEnd < f.Info.size - 1 →
      seekEnd < nextSeekEnd 20 f.Info.size seekEnd ∧
        nextSeekEnd 20 f.Info.size seekEnd ≤ f.Info.size - 1) :=
  planFiles_terminates 2 20 [sampleFile "file1" 10, sampleFile "empty" 0, sampleFile "file2" 25]
    (by decide) (by decide) (by decide) (by decide)

/-- C5. `ChunkMulti` returns an error with no graph built and nothing written whenever the
slice size is 0, the parallelism degree is not positive or the target list is empty; and none
of the guards fires for a positive slice size, a parallelism degree of at least 1, a non-empty
parent path and a non-empty target list. -/
theorem ChunkMulti_config_errors (env : ChunkEnv) (fuel : Nat) (sliceSize : Int)
    (parentPath : String) (targetsPath : List String) (parallel : Int) (padding : List Bool) :
    ((sliceSize = 0 ∨ parallel ≤ 0 ∨ targetsPath = []) →
      ∃ e, ChunkMulti env fuel sliceSize parentPath targetsPath parallel padding =
        some { built := [], wroteDescs := false, err := some e }) ∧
    (0 < sliceSize → 1 ≤ parallel → parentPath ≠ "" → targetsPath ≠ [] →
      configCheck sliceSize parentPath targetsPath parallel = none) := by
  constructor
  · intro h
    have hcheck : ∃ e, configCheck sliceSize parentPath targetsPath parallel = some e := by
      unfold configCheck
      by_cases h1 : sliceSize = 0
      · exact ⟨_, if_pos h1⟩
      · by_cases h2 : parallel ≤ 0
        · exact ⟨_, by rw [if_neg h1, if_pos h2]⟩
        · by_cases h3 : parentPath = ""
          · exact ⟨_, by rw [if_neg h1, if_neg h2, if_pos h3]⟩
          · have h4 : targetsPath.length = 0 := by
              rcases h with h | h | h
              · exact absurd h h1
              · exact absurd h h2
              · rw [h]; rfl
            exact ⟨_, by rw [if_neg h1, if_neg h2, if_neg h3, if_pos h4]⟩
    obtain ⟨e, he⟩ := hcheck
    exact ⟨e, by simp only [ChunkMulti, he]⟩
  · intro h1 h2 h3 h4
    unfold configCheck
    have h4' : ¬ targetsPath.length = 0 := by
      intro h
      exact h4 (List.length_eq_zero.mp h)
    rw [if_neg (by omega), if_neg (by omega), if_neg h3, if_neg h4']

/-- The claim C5 on a slice size of 0, and on a valid configuration. -/
theorem ChunkMulti_config_errors_witness :
    (∃ e, ChunkMulti sampleEnv 2 0 "/data" ["/data"] 4 [] =
      some { built := [], wroteDescs := false, err := some e }) ∧
    configCheck 20 "/data" ["/data"] 4 = none :=
  ⟨(ChunkMulti_config_errors sampleEnv 2 0 "/data" ["/data"] 4 []).1 (Or.inl rfl),
    (ChunkMulti_config_errors sampleEnv 2 20 "/data" ["/data"] 4 []).2 (by decide) (by decide)
      (by decide) (by decide)⟩

/-- C7, the code at the first notification: against a manifest that does not exist both sinks
write one header before the data row, and against an existing manifest only the data row; but
the first column of the header is spelled `playload_cid` in both variants, so the header is
not the `payload_cid, ..` header of the interface. -/
theorem OnSuccess_header_misspelled :
    commPCallback.OnSuccess sampleSinkEnv
        { carDir := "/car", rename := false, addPadding := false, carDesc := none }
        none "bafy" "graph-0" "detail" =
      .done (some [["playload_cid", "filename", "piece_cid", "payload_size", "piece_size",
                    "detail"],
                   ["bafy", "graph-0", "baga", "20", "32", "detail"]],
        { carDir := "/car", rename := false, addPadding := false, carDesc := none }) ∧
    commPCallback.OnSuccess sampleSinkEnv
        { carDir := "/car", rename := false, addPadding := false, carDesc := none }
        (some [commPHeader]) "bafy" "graph-0" "detail" =
      .done (some [commPHeader, ["bafy", "graph-0", "baga", "20", "32", "detail"]],
        { carDir := "/car", rename := false, addPadding := false, carDesc := none }) ∧
    csvCallback.OnSuccess sampleSinkEnv { carDir := "/car" } none "bafy" "graph-0" "detail" =
      .done (some "playload_cid,filename,detail\nbafy,graph-0,detail\n") ∧
    csvCallback.OnSuccess sampleSinkEnv { carDir := "/car" } (some csvHeader)
        "bafy" "graph-0" "detail" =
      .done (some "playload_cid,filename,detail\nbafy,graph-0,detail\n") ∧
    commPHeader ≠
      ["payload_cid", "filename", "piece_cid", "payload_size", "piece_size", "detail"] ∧
    csvHeader ≠ "payload_cid,filename,detail\n" := by
  refine ⟨by decide, by decide, by decide, by decide, by decide, by decide⟩

/-- C8, the code on a layout description that cannot be decoded: when the commitment is
computed, the manifest is written and the sink records descriptors, `OnSuccess` returns
normally, with the data row appended and the recorded descriptors unchanged. -/
theorem OnSuccess_drops_descriptor_error (env : SinkEnv) (cc : commPCallback) (cd : carDesc)
    (manifest : Option (List (List String))) (cid graphName fsDetail : String)
    (cp : CommPResult) (hcd : cc.carDesc = some cd)
    (hcalc : env.CalcCommP (env.pathJoin cc.carDir (cid ++ ".car")) cc.rename cc.addPadding =
      .ok cp)
    (hstat : env.statFails = false) (hopen : env.openFails = false)
    (hwrite : env.writeFails = false) (hjson : env.jsonUnmarshal fsDetail = none) :
    ∃ records, commPCallback.OnSuccess env cc manifest cid graphName fsDetail =
        .done (some records, cc) ∧
      records.getLast? =
        some [cid, graphName, cp.Root, toString cp.PayloadSize, toString cp.Size, fsDetail] := by
  obtain ⟨carDir, rename, addPadding, carDesc⟩ := cc
  simp only at hcd hcalc
  subst hcd
  refine ⟨(if manifest.isNone then manifest.getD [] ++ [commPHeader] else manifest.getD []) ++
      [[cid, graphName, cp.Root, toString cp.PayloadSize, toString cp.Size, fsDetail]],
    ?_, ?_⟩
  · simp only [commPCallback.OnSuccess, hcalc, hstat, hopen, hwrite, carDesc.recordFilesDesc,
      hjson]
    rfl
  · exact List.getLast?_concat _

/-- The evaluation for C8 on a sink that records descriptors and a description `not json`. -/
theorem OnSuccess_drops_descriptor_error_witness :
    ∃ records, commPCallback.OnSuccess sampleSinkEnv
        { carDir := "/car", rename := false, addPadding := false,
          carDesc := some { carMd5 := false, wholeDir := false, inputDir := "/data",
                            fileDescs := [] } }
        none "bafy" "graph-0" "not json" =
        .done (some records,
          { carDir := "/car", rename := false, addPadding := false,
            carDesc := some { carMd5 := false, wholeDir := false, inputDir := "/data",
                              fileDescs := [] } }) ∧
      records.getLast? = some ["bafy", "graph-0", "baga", toString (20 : Int),
        toString (32 : Nat), "not json"] :=
  OnSuccess_drops_descriptor_error sampleSinkEnv _ _ none "bafy" "graph-0" "not json"
    { Root := "baga", PayloadSize := 20, Size := 32 } rfl rfl rfl rfl rfl rfl

/-- C9, the code on a target without separator: for the regular file `file.txt` and an empty
parent path, `strings.LastIndex` gives `-1` and the slice `targetPath[:-1]` panics, whereas
`/data/file.txt` gives the parent path `/data`. -/
theorem Chunk_panics_without_separator :
    lastIndex "file.txt" '/' = -1 ∧
    chunkParentPath (fun _ => true) "" "file.txt" =
      .panicked "slice bounds out of range [:-1]" ∧
    (∀ env fuel sliceSize parallel padding,
      Chunk env (fun _ => true) fuel sliceSize "" "file.txt" parallel padding =
        .panicked "slice bounds out of range [:-1]") ∧
    chunkParentPath (fun _ => true) "" "/data/file.txt" = .done "/data" := by
  refine ⟨by decide, by decide, ?_, by decide⟩
  intro env fuel sliceSize parallel padding
  have h : chunkParentPath (fun _ => true) "" "file.txt" =
      .panicked "slice bounds out of range [:-1]" := by decide
  simp only [Chunk, h]

/-- C4, refuted as stated.  A file `a` of 20 bytes followed by an empty file `z`, with slices
of 20 bytes: the only graph emitted holds `a`, no emitted graph holds `z`, and no file named
`z` is reconstructed.  A single file named `x.00000000`: its record is grouped under `x`,
so that the file reconstructed is named `x` and none is named `x.00000000`.  A file named as
the placeholder, with padding requested: two files of that name are reconstructed.  And two
files of `2^62` bytes with a slice size of `2^63 - 1`, where `cumuSize + fileSize` overflows
`int64`: no graph is emitted. -/
theorem planGraphs_roundtrip_fails :
    planGraphs failingOS 2 20 "/data" [] [sampleFile "a" 20, sampleFile "z" 0] =
        some [{ files := [sampleFile "a" 20], index := 0 }] ∧
      sampleFile "z" 0 ∉ allRecords [{ files := [sampleFile "a" 20], index := 0 }] ∧
      "z" ∉ (Merge (extractFiles (sampleDisk [sampleFile "a" 20, sampleFile "z" 0])
          [{ files := [sampleFile "a" 20], index := 0 }])).map Prod.fst ∧
      planGraphs failingOS 2 20 "/data" [] [sampleFile "x.00000000" 5] =
        some [{ files := [sampleFile "x.00000000" 5], index := 0 }] ∧
      (Merge (extractFiles (sampleDisk [sampleFile "x.00000000" 5])
          [{ files := [sampleFile "x.00000000" 5], index := 0 }])).map Prod.fst = ["x"] ∧
      "x.00000000" ∉ (Merge (extractFiles (sampleDisk [sampleFile "x.00000000" 5])
          [{ files := [sampleFile "x.00000000" 5], index := 0 }])).map Prod.fst ∧
      (planGraphs workingOS 2 20 "/data" [true] [sampleFile "___car___.placeholder" 5]).map
          (fun gs => (Merge (extractFiles
            (sampleDisk [sampleFile "___car___.placeholder" 5]) gs)).map Prod.fst) =
        some ["___car___.placeholder", "___car___.placeholder"] ∧
      planGraphs failingOS 2 (2 ^ 63 - 1) "/data" []
          [sampleFile "a" (2 ^ 62), sampleFile "b" (2 ^ 62)] = some [] := by
  refine ⟨by decide, by decide, by decide, by decide, by decide, by decide, by decide,
    by decide⟩

/-- C4, amended.  For a positive slice size, with or without padding, and enumerated input
files whose sizes are the lengths of their contents, with `sliceSize + fileSize < 2^63`,
whose names are pairwise distinct and carry no `.%08d` suffix, which do not end with an empty
file while their total size is a multiple of the slice size, and none of which bears the name
of the placeholder when padding is requested: extracting the records of the emitted graphs,
grouping them by the part of the name before the `.%08d` suffix, ordering each group by
suffix and concatenating yields, up to the order of the directory, exactly the input files
(the empty ones included), each once, with its original name and its content, followed by
the placeholder when one was appended. -/
theorem planGraphs_merge_roundtrip (os : PaddingOS) (disk : String → List UInt8) (fuel : Nat)
    (S : Int) (parentPath : String) (padding : List Bool) (files : List Finfo) (hS : 0 < S)
    (hfiles : ∀ f ∈ files,
      f.Name = f.Info.name ∧ ((disk f.Path).length : Int) = f.Info.size)
    (hfit : ∀ f ∈ files, S + f.Info.size < 2 ^ 63)
    (hfuel : ∀ f ∈ files, ceilDiv f.Info.size S ≤ fuel)
    (hnodup : (files.map (fun f => f.Info.name)).Nodup)
    (hplain : ∀ f ∈ files, splitSuffix f.Info.name = none)
    (hlast : ∀ f, files.getLast? = some f →
      0 < f.Info.size ∨ ¬ S ∣ (files.map (fun f => f.Info.size)).sum)
    (hplace : padding.head? = some true →
      (∀ f ∈ files, f.Info.name ≠ carPaddingFileName) ∧
      ∀ size f, generateRandomPaddingFile os parentPath size = some f →
        f.Info.name = carPaddingFileName) :
    ∃ gs pad, planGraphs os fuel S parentPath padding files = some gs ∧
      (pad = [] ∨ (padding.head? = some true ∧
        ∃ f size, generateRandomPaddingFile os parentPath size = some f ∧ pad = [f])) ∧
      List.Perm (Merge (extractFiles disk gs))
        (files.map (fun f => (f.Info.name, disk f.Path)) ++
          pad.map (fun f => (f.Info.name, disk f.Path))) := by
  have hen : ∀ f ∈ files, Enumerated f := by
    intro f hf
    obtain ⟨hn, hl⟩ := hfiles f hf
    exact ⟨hn, by omega⟩
  obtain ⟨gs, segs, pad, hrun, hsegs, hrec, hpadcase⟩ :=
    planGraphs_nothing_dropped os fuel S parentPath padding files hS hen hfit hfuel hlast
  obtain ⟨P, hP1, hP2, hP3⟩ := pairs_of_forall₂ hsegs
  have hmem : ∀ p ∈ P, p.1 ∈ files := by
    intro p hp
    rw [← hP1]
    exact List.mem_map.mpr ⟨p, hp, rfl⟩
  have hgoodP : ∀ p ∈ P, GoodPair p := fun p hp =>
    ⟨(hfiles p.1 (hmem p hp)).1, hplain p.1 (hmem p hp), hP3 p hp⟩
  have hflatP : segs.flatten = P.flatMap Prod.snd := by
    rw [← hP2]
    clear hP1 hP2 hP3 hmem hgoodP
    induction P with
    | nil => rfl
    | cons q Q ih => simp [List.flatMap]
  have hnamesP : P.map (fun p => p.1.Info.name) = files.map (fun f => f.Info.name) := by
    rw [← hP1, List.map_map]
    rfl
  have houtP : files.map (fun f => (f.Info.name, disk f.Path)) =
      P.map (fun p => (p.1.Info.name, disk p.1.Path)) := by
    rw [← hP1, List.map_map]
    rfl
  have hgoodQ : ∀ p ∈ pad.map (fun f => (f, [f])), GoodPair p := by
    intro p hp
    obtain ⟨f, hf, rfl⟩ := List.mem_map.mp hp
    rcases hpadcase with h | ⟨hpad, f', size, hgen, h⟩
    · rw [h] at hf; cases hf
    · rw [h, List.mem_singleton] at hf
      subst hf
      refine ⟨generateRandomPaddingFile_name os parentPath size f hgen, ?_, Or.inl rfl⟩
      show splitSuffix f.Info.name = none
      rw [(hplace hpad).2 size f hgen]
      decide
  have hnamesQ : ∀ p ∈ pad.map (fun f => (f, [f])),
      p.1.Info.name ∉ files.map (fun f => f.Info.name) := by
    intro p hp hin
    obtain ⟨f, hf, rfl⟩ := List.mem_map.mp hp
    rcases hpadcase with h | ⟨hpad, f', size, hgen, h⟩
    · rw [h] at hf; cases hf
    · rw [h, List.mem_singleton] at hf
      subst hf
      obtain ⟨g, hg, hgn⟩ := List.mem_map.mp hin
      have h1 : f.Info.name = carPaddingFileName := (hplace hpad).2 size f hgen
      have h2 := (hplace hpad).1 g hg
      simp only at hgn
      rw [h1] at hgn
      exact h2 hgn
  have hperm := merge_of_pairs disk (P ++ pad.map (fun f => (f, [f])))
    (by
      intro p hp
      rcases List.mem_append.mp hp with hp | hp
      · exact hgoodP p hp
      · exact hgoodQ p hp)
    (by
      intro p hp hne
      rcases List.mem_append.mp hp with hp | hp
      · exact (hfiles p.1 (hmem p hp)).2
      · obtain ⟨f, _, rfl⟩ := List.mem_map.mp hp
        exact absurd rfl hne)
    (by
      rw [List.map_append, hnamesP]
      refine List.Nodup.append hnodup ?_ ?_
      · rcases hpadcase with h | ⟨_, f, _, _, h⟩
        · rw [h]; exact List.nodup_nil
        · rw [h]; exact List.nodup_singleton _
      · intro x hx1 hx2
        obtain ⟨p, hp, rfl⟩ := List.mem_map.mp hx2
        exact hnamesQ p hp hx1)
  refine ⟨gs, pad, hrun, hpadcase, ?_⟩
  have hrecs : allRecords gs = (P ++ pad.map (fun f => (f, [f]))).flatMap Prod.snd := by
    rw [hrec, hflatP, List.flatMap_append]
    congr 1
    clear hpadcase hgoodQ hnamesQ hperm hrec
    induction pad with
    | nil => rfl
    | cons f rest ih =>
      rw [List.map_cons, List.flatMap_cons, ← ih]
      rfl
  have hout : files.map (fun f => (f.Info.name, disk f.Path)) ++
      pad.map (fun f => (f.Info.name, disk f.Path)) =
      (P ++ pad.map (fun f => (f, [f]))).map (fun p => (p.1.Info.name, disk p.1.Path)) := by
    rw [List.map_append, houtP, List.map_map]
    rfl
  unfold extractFiles
  rw [hrecs, hout]
  exact hperm

/-- The amended claim C4 on files of 3, 10, 0, 2 and 0 bytes with slices of 4 bytes and a
placeholder of 1 byte appended to the last graph. -/
theorem planGraphs_merge_roundtrip_witness :
    ∃ gs pad, planGraphs workingOS 3 4 "/data" [true]
        [sampleFile "a" 3, sampleFile "b" 10, sampleFile "c" 0, sampleFile "d" 2,
          sampleFile "e" 0] = some gs ∧
      (pad = [] ∨ ([true].head? = some true ∧
        ∃ f size, generateRandomPaddingFile workingOS "/data" size = some f ∧ pad = [f])) ∧
      List.Perm
        (Merge (extractFiles
          (sampleDisk [sampleFile "a" 3, sampleFile "b" 10, sampleFile "c" 0, sampleFile "d" 2,
            sampleFile "e" 0])
          gs))
        ([sampleFile "a" 3, sampleFile "b" 10, sampleFile "c" 0, sampleFile "d" 2,
            sampleFile "e" 0].map
          (fun f => (f.Info.name,
            sampleDisk [sampleFile "a" 3, sampleFile "b" 10, sampleFile "c" 0, sampleFile "d" 2,
              sampleFile "e" 0] f.Path)) ++
          pad.map (fun f => (f.Info.name,
            sampleDisk [sampleFile "a" 3, sampleFile "b" 10, sampleFile "c" 0, sampleFile "d" 2,
              sampleFile "e" 0] f.Path))) :=
  planGraphs_merge_roundtrip workingOS
    (sampleDisk [sampleFile "a" 3, sampleFile "b" 10, sampleFile "c" 0, sampleFile "d" 2,
      sampleFile "e" 0])
    3 4 "/data" [true]
    [sampleFile "a" 3, sampleFile "b" 10, sampleFile "c" 0, sampleFile "d" 2, sampleFile "e" 0]
    (by decide) (by decide) (by decide) (by decide) (by decide) (by decide) (by decide)
    (fun _ => ⟨by decide, fun size f h => by
      simp only [generateRandomPaddingFile, workingOS, if_true, Option.some.injEq] at h
      rw [← h]⟩)

end Graphsplit
